import Mathlib

/-!
# Verification of the absorb file-fixup core

This development gives a shallow embedding of the core of
`sapling/ext/absorb/__init__.py` (`filefixupstate` and the free function
`_calculate_gap_lines`) and proves properties of it.

File contents are modelled as their newline-split line lists
(`List String`), exactly the `contentlines` representation the Python code
computes once with `mdiff.splitnewlines` and then works with throughout.

The linelog engine (`bindings.linelog.IntLineLog`) and the diff routine
(`mdiff.allblocks`) are external library dependencies of the file; they are
modelled from the specification where noted.
-/

set_option linter.unusedVariables false

namespace Absorb

/-- One line record of the linelog.  Modelled from the spec: every line is
tagged with `(originRevision, originLineNumber)`; a line deleted by a later
edit keeps its tag and additionally carries the revision that deleted it
(`delRev`), so that `checkout r` sees it exactly for `r < delRev`. -/
structure LineEntry where
  rev : ℕ
  linenum : ℕ
  delRev : Option ℕ
deriving DecidableEq, Repr

/-- Modelled from the spec: the linelog is an append-only ordered sequence
of line records plus the maximum revision number (`maxRevision()`). -/
structure LineLog where
  entries : List LineEntry
  maxrev : ℕ
deriving DecidableEq, Repr

/-- A line of a checkout: the `(rev, linenum, pc, deleted)` tuples returned
by `linelog.checkout_lines`.  The `pc` component is carried along but never
read by the absorb code. -/
structure AnnLine where
  rev : ℕ
  linenum : ℕ
  pc : ℕ
  deleted : Bool
deriving DecidableEq, Repr

instance : Inhabited AnnLine := ⟨⟨0, 0, 0, false⟩⟩

/-- Whether a line record is visible when revision `r` is checked out:
introduced at or below `r` and not yet deleted at `r`. -/
def visibleAt (r : ℕ) (e : LineEntry) : Bool :=
  decide (e.rev ≤ r) &&
    (match e.delRev with
     | none => true
     | some d => decide (r < d))

/-- Modelled from the spec: `checkout(revision)` returns the visible lines
of `revision`, each tagged with its origin, followed by the dummy "end"
line (the absorb code asserts `len(annotated) == len(alines) + 1` and
strips it with `[:-1]` where only content lines are wanted). -/
def checkout_lines (log : LineLog) (r : ℕ) : List AnnLine :=
  (log.entries.filter (visibleAt r)).map (fun e => ⟨e.rev, e.linenum, 0, false⟩)
    ++ [⟨0, 0, 0, false⟩]

/-- Modelled from the spec: `checkoutFull` (`checkout_lines(rev, 0)`)
returns every line ever attributed at or below `rev`, in document order,
each flagged `deleted` when it is no longer visible at `rev`, followed by
the dummy end line. -/
def checkout_lines_full (log : LineLog) (r : ℕ) : List AnnLine :=
  (log.entries.filter (fun e => decide (e.rev ≤ r))).map
    (fun e => ⟨e.rev, e.linenum, 0, !visibleAt r e⟩)
    ++ [⟨0, 0, 0, false⟩]

/-- Worker for `edit_chunk`: walk the document, counting the lines visible
at `arev`; insert the new records directly before the `a1`-th visible line
(or at the end of the document when `a1` is past the last one), and mark
the visible lines with index in `[a1, a2)` as deleted by `brev`. -/
def editChunkGo (arev brev : ℕ) (a1 a2 : ℤ) (ins : List LineEntry) :
    ℤ → List LineEntry → List LineEntry
  | cnt, [] => if cnt ≤ a1 then ins else []
  | cnt, e :: rest =>
    if visibleAt arev e then
      (if cnt = a1 then ins else []) ++
        ((if a1 ≤ cnt ∧ cnt < a2 then { e with delRev := some brev } else e)
          :: editChunkGo arev brev a1 a2 ins (cnt + 1) rest)
    else
      e :: editChunkGo arev brev a1 a2 ins cnt rest

/-- Modelled from the spec: `editChunk(asOfRevision, a1, a2, targetRevision,
b1, b2)` deletes lines `[a1, a2)` as seen in `checkout(asOfRevision)` and
inserts the target lines `[b1, b2)` there, attributing both the deletion and
the insertion to `targetRevision`, so that `checkout(r)` reflects the edit
exactly for `r ≥ targetRevision`.  The spec declares out-of-range arguments
an internal error (`InvalidRange`); the model is total and is only ever used
within the spec's precondition. -/
def edit_chunk (log : LineLog) (arev : ℕ) (a1 a2 : ℤ) (brev : ℕ) (b1 b2 : ℤ) :
    LineLog :=
  let ins := (List.range (b2 - b1).toNat).map
    (fun (k : ℕ) => LineEntry.mk brev (b1 + (k : ℤ)).toNat none)
  { entries := editChunkGo arev brev a1 a2 ins 0 log.entries,
    maxrev := max log.maxrev (max arev brev) }

/-- Length of the longest common prefix of two line lists. -/
def commonPrefixLen : List String → List String → ℕ
  | x :: xs, y :: ys => if x = y then commonPrefixLen xs ys + 1 else 0
  | _, _ => 0

/-- Modelled from the spec: `_alldiffchunks` — a standard line-level diff of
two line lists keeping only the change (non-equal) hunks.  Modelled as
maximal common-prefix/common-suffix trimming, which yields the unique
change hunk `(a1, a2, b1, b2)` when the inputs differ in one contiguous
region and no hunk when they are equal; on such inputs it agrees with the
`mdiff.allblocks` diff the source calls. -/
def alldiffchunks (a b : List String) : List (ℕ × ℕ × ℕ × ℕ) :=
  let p := commonPrefixLen a b
  let s := commonPrefixLen (a.drop p).reverse (b.drop p).reverse
  if a.length - p = s ∧ b.length - p = s then []
  else [(p, a.length - s, p, b.length - s)]

/-- `_buildlinelog`: fold the snapshots oldest first, recording the diff of
each consecutive pair at the odd linelog revision `2*i + 1`; the chunks of
one step are replayed in reversed order so that earlier coordinates stay
valid.  The paired (initially empty) even edit revisions bring the maximum
revision to `2 * n`. -/
def buildStep (acc : LineLog × List String × ℕ) (b : List String) :
    LineLog × List String × ℕ :=
  let llrev := 2 * acc.2.2 + 1
  let chunks := alldiffchunks acc.2.1 b
  let llog := chunks.reverse.foldl
    (fun L c => edit_chunk L llrev (c.1 : ℤ) (c.2.1 : ℤ) llrev (c.2.2.1 : ℤ) (c.2.2.2 : ℤ))
    acc.1
  (llog, b, acc.2.2 + 1)

/-- `filefixupstate._buildlinelog`, over the snapshots' line lists. -/
def buildlinelog (contentlines : List (List String)) : LineLog :=
  let acc := contentlines.foldl buildStep (⟨[], 0⟩, [], 0)
  { acc.1 with maxrev := 2 * contentlines.length }

/-- `bisect.bisect_left` of the Python standard library, on the sorted
lists the absorb code applies it to: the leftmost insertion point, i.e. the
number of leading elements strictly below the probe. -/
def bisect_left (l : List ℚ) (x : ℚ) : ℕ :=
  (l.takeWhile (fun g => g < x)).length

/-- `filefixupstate._iscontinuous` (the `a1`, `a2` arguments are Python
integers, compared against the half-integer gap positions). -/
def iscontinuous (gap_lines : List ℚ) (a1 a2 : ℤ) : Bool :=
  if a1 ≥ a2 then true
  else
    let gap_index := bisect_left gap_lines (a1 : ℚ)
    if gap_index ≥ gap_lines.length then true
    else decide ((a2 : ℚ) ≤ gap_lines.getD gap_index 0)

/-- The half-integer position `lineno + 0.5` recorded by
`_calculate_gap_lines`, written as the rational `(2*lineno + 1)/2` in
lowest terms (so that concrete computations reduce). -/
def halfAbove (lineno : ℤ) : ℚ :=
  ⟨2 * lineno + 1, 2, by omega, by
    refine Nat.coprime_two_right.mpr (Int.natAbs_odd.mpr ⟨lineno, ?_⟩)
    ring⟩

/-- The loop of `_calculate_gap_lines`, with its two accumulator variables
`lineno` (started at `-1`) and `last_gap_line` (started at `-1`):
a `deleted` entry whose `lineno` is nonnegative and differs from
`last_gap_line` records the gap `lineno + 0.5`; every other entry —
including a `deleted` one that records nothing — increments `lineno`. -/
def calcGapLinesGo : ℤ → ℤ → List AnnLine → List ℚ
  | _, _, [] => []
  | lineno, lastgap, l :: rest =>
    if l.deleted ∧ lineno ≠ lastgap ∧ 0 ≤ lineno then
      halfAbove lineno :: calcGapLinesGo lineno lineno rest
    else calcGapLinesGo (lineno + 1) lastgap rest

/-- `_calculate_gap_lines` as a function of the full checkout it scans. -/
def calculate_gap_lines (all_lines : List AnnLine) : List ℚ :=
  calcGapLinesGo (-1) (-1) all_lines

/-- `_calculate_gap_lines(linelog)` with the default revision argument:
scan the full checkout of the maximum revision. -/
def calcGapLines (log : LineLog) : List ℚ :=
  calculate_gap_lines (checkout_lines_full log log.maxrev)

/-- A fixup `(rev, a1, a2, b1, b2)`.  The components are Python integers;
`ℤ` is required because `_optimizefixups` uses `-1` as a sentinel. -/
structure Fixup where
  rev : ℤ
  a1 : ℤ
  a2 : ℤ
  b1 : ℤ
  b2 : ℤ
deriving DecidableEq, Repr

/-- `pushchunk` of `_optimizefixups`: append the accumulated chunk unless
it is still the `-1` sentinel. -/
def pushchunk (result : List Fixup) (pcur : Fixup) : List Fixup :=
  if pcur.rev ≠ -1 then result ++ [pcur] else result

/-- One iteration of the `_optimizefixups` loop over state
`(result, pcurrentchunk)`: merge the incoming chunk into the current one
when it extends it seamlessly for the same revision and the boundary is
continuous, otherwise push the current chunk and start a new one. -/
def optimizeStep (gap_lines : List ℚ) (st : List Fixup × Fixup) (c : Fixup) :
    List Fixup × Fixup :=
  if c.a1 = st.2.a2 ∧ c.b1 = st.2.b2 ∧ c.rev = st.2.rev ∧
      iscontinuous gap_lines (max (c.a1 - 1) 0) c.a1 = true then
    (st.1, { st.2 with a2 := c.a2, b2 := c.b2 })
  else
    (pushchunk st.1 st.2, c)

/-- `filefixupstate._optimizefixups`. -/
def optimizefixups (gap_lines : List ℚ) (fixups : List Fixup) : List Fixup :=
  let st := fixups.foldl (optimizeStep gap_lines) ([], ⟨-1, -1, -1, -1, -1⟩)
  pushchunk st.1 st.2

/-- `nearbylinenums = set([a2, max(0, a1 - 1)])` of `_analysediffchunk`
(a two-element integer set, deduplicated). -/
def nearbyLineNums (a1 a2 : ℕ) : List ℕ :=
  [a2, a1 - 1].dedup

/-- The `involved` list of `_analysediffchunk`: the annotated lines
`annotated[a1:a2]`, or, for a pure insertion into a nonempty file, the
nearby lines that do not belong to the public (first) changeset. -/
def involvedLines (chunk : ℕ × ℕ × ℕ × ℕ) (annotated : List AnnLine) :
    List AnnLine :=
  let involved := (annotated.drop chunk.1).take (chunk.2.1 - chunk.1)
  if involved = [] ∧ annotated ≠ [] then
    (nearbyLineNums chunk.1 chunk.2.1).filterMap (fun i =>
      match annotated.get? i with
      | some l => if l.rev ≠ 1 then some l else none
      | none => none)
  else involved

/-- The body of the per-line loop in the 1:1 / pure-deletion branch of
`_analysediffchunk`: line `i`, when attributable (`rev > 1`), is mapped to
the matching single target line, or to an empty range when the chunk is a
pure deletion. -/
def perLineFixup (a1 b1 b2 : ℕ) (annotated : List AnnLine) (i : ℕ) :
    Option Fixup :=
  match annotated.get? i with
  | some l =>
    if 1 < l.rev then
      let nb1 : ℤ := if b1 = b2 then 0 else (b1 : ℤ) + (i : ℤ) - (a1 : ℤ)
      let nb2 : ℤ := if b1 = b2 then 0 else ((b1 : ℤ) + (i : ℤ) - (a1 : ℤ)) + 1
      some ⟨(l.rev : ℤ) + 1, (i : ℤ), (i : ℤ) + 1, nb1, nb2⟩
    else none
  | none => none

/-- The `newfixups` list computed by `_analysediffchunk` before the final
`_optimizefixups` pass: one fixup for a continuous single-revision chunk
whose revision is attributable, or one per-line fixup for each attributable
line of a 1:1 (or pure-deletion) chunk. -/
def analyseChunkRaw (gap_lines : List ℚ) (chunk : ℕ × ℕ × ℕ × ℕ)
    (annotated : List AnnLine) : List Fixup :=
  let a1 := chunk.1
  let a2 := chunk.2.1
  let b1 := chunk.2.2.1
  let b2 := chunk.2.2.2
  let involved := involvedLines chunk annotated
  let involvedrevs : List ℕ := (involved.map (·.rev)).dedup
  if involvedrevs.length = 1 ∧
      iscontinuous gap_lines (a1 : ℤ) ((a2 : ℤ) - 1) = true then
    match involvedrevs.head? with
    | some rev =>
      if 1 < rev then [⟨(rev : ℤ) + 1, (a1 : ℤ), (a2 : ℤ), (b1 : ℤ), (b2 : ℤ)⟩]
      else []
    | none => []
  else if (a2 : ℤ) - (a1 : ℤ) = (b2 : ℤ) - (b1 : ℤ) ∨ b1 = b2 then
    (List.range' a1 (a2 - a1)).filterMap (perLineFixup a1 b1 b2 annotated)
  else []

/-- `filefixupstate._analysediffchunk`. -/
def analysediffchunk (gap_lines : List ℚ) (chunk : ℕ × ℕ × ℕ × ℕ)
    (annotated : List AnnLine) : List Fixup :=
  optimizefixups gap_lines (analyseChunkRaw gap_lines chunk annotated)

/-- `state needed to apply fixups to a single file` (`filefixupstate`).
The fields mirror the Python instance attributes; the user-interface pieces
(`ui`, `opts`, `path`, `ctxaffected`) are omitted. -/
structure FileFixupState where
  contentlines : List (List String)
  linelog : LineLog
  gap_lines : List ℚ
  chunkstats : ℕ × ℕ
  targetlines : List String
  fixups : List Fixup
  finalcontents : List String
deriving DecidableEq, Repr

/-- `filefixupstate.__init__`, over the snapshots' line lists. -/
def mkFileFixupState (contentlines : List (List String)) : FileFixupState :=
  let llog := buildlinelog contentlines
  { contentlines := contentlines,
    linelog := llog,
    gap_lines := calcGapLines llog,
    chunkstats := (0, 0),
    targetlines := [],
    fixups := [],
    finalcontents := [] }

/-- The correction `diffwith` applies to the annotated checkout: the dummy
end line inherits the `(rev, linenum)` of the last actual line (when there
is one). -/
def fixEndLine (annotated : List AnnLine) : List AnnLine :=
  if 1 < annotated.length then
    let prev := annotated.getD (annotated.length - 2) default
    let last := annotated.getLast?.getD default
    annotated.dropLast ++ [{ last with rev := prev.rev, linenum := prev.linenum }]
  else annotated

/-- `filefixupstate.diffwith`, taking the target's line list. -/
def diffwith (s : FileFixupState) (blines : List String) : FileFixupState :=
  let alines := (s.contentlines.getLast?).getD []
  let annotated := fixEndLine (checkout_lines s.linelog s.linelog.maxrev)
  let chunks := alldiffchunks alines blines
  let res := chunks.foldl
    (fun (acc : List Fixup × ℕ × ℕ) chunk =>
      let newfixups := analysediffchunk s.gap_lines chunk annotated
      (acc.1 ++ newfixups,
       acc.2.1 + (if newfixups.isEmpty then 0 else 1),
       acc.2.2 + 1))
    ([], s.chunkstats)
  { s with targetlines := blines, fixups := res.1, chunkstats := res.2 }

/-- `filefixupstate._getline`: odd revisions name original content lines,
even revisions name target lines. -/
def getline (s : FileFixupState) (rev linenum : ℕ) : String :=
  if rev % 2 = 1 then (s.contentlines.getD (rev / 2) []).getD linenum ""
  else s.targetlines.getD linenum ""

/-- `filefixupstate._checkoutlinelog`: join the resolved lines of the even
(edit) revision paired with each snapshot. -/
def checkoutlinelog (s : FileFixupState) : List String :=
  (List.range s.contentlines.length).map (fun i =>
    let annotated := (checkout_lines s.linelog ((i + 1) * 2)).dropLast
    String.join (annotated.map (fun l => getline s l.rev l.linenum)))

/-- The content of one checkout, resolved to lines through `_getline`. -/
def checkout_content (s : FileFixupState) (r : ℕ) : List String :=
  ((checkout_lines s.linelog r).dropLast).map (fun l => getline s l.rev l.linenum)

/-- `filefixupstate.apply` (the non-`edit_lines` path): replay the fixups
in reversed recorded order through `edit_chunk` against the maximum
revision read at entry, then check out every revision pair. -/
def applyState (s : FileFixupState) : FileFixupState :=
  let max_rev := s.linelog.maxrev
  let llog := (s.fixups.reverse).foldl
    (fun L f => edit_chunk L max_rev f.a1 f.a2 f.rev.toNat f.b1 f.b2)
    s.linelog
  let s1 : FileFixupState := { s with linelog := llog }
  { s1 with finalcontents := checkoutlinelog s1 }

/-- Resolution of a build-time line record to its text: the odd revision
`2*i + 1` holds line `linenum` of snapshot `i` (this is `_getline`
restricted to the odd revisions, the only ones present before `apply`). -/
def resolveB (cs : List (List String)) (e : LineEntry) : String :=
  (cs.getD (e.rev / 2) []).getD e.linenum ""

/-- Invariant of the `_buildlinelog` fold after `i` snapshots: every line
record lives at a revision at most `2*i - 1` (as does its deleting
revision, if any), and every checkout at or above revision `2*i - 1`
resolves to the most recently recorded content `a`. -/
def BuildInv (cs : List (List String)) (i : ℕ) (L : LineLog)
    (a : List String) : Prop :=
  (∀ e ∈ L.entries, e.rev + 1 ≤ 2 * i ∧ ∀ d ∈ e.delRev, d + 1 ≤ 2 * i) ∧
  (∀ r : ℕ, 2 * i ≤ r + 1 →
    (L.entries.filter (visibleAt r)).map (resolveB cs) = a)

/-!
## Concrete scenarios

States built through the full pipeline, used to settle the claims that are
about concrete behaviour.
-/

/-- Modelled from the spec: a "valid fixup set" for a state (the spec
quantifies the optimizer-correctness property over these without defining
them): every fixup deletes a well-formed in-bounds range of the newest
checkout, replaces it by a well-formed in-bounds range of the target lines,
targets an existing even (edit) revision above the immutable pair, and the
delete ranges are ordered and mutually disjoint. -/
def validfixups (s : FileFixupState) (fs : List Fixup) : Prop :=
  (∀ f ∈ fs,
      0 ≤ f.a1 ∧ f.a1 ≤ f.a2 ∧
      f.a2 + 1 ≤ ((checkout_lines s.linelog s.linelog.maxrev).length : ℤ) ∧
      0 ≤ f.b1 ∧ f.b1 ≤ f.b2 ∧ f.b2 ≤ (s.targetlines.length : ℤ) ∧
      4 ≤ f.rev ∧ f.rev ≤ (s.linelog.maxrev : ℤ) ∧ f.rev % 2 = 0) ∧
  List.Pairwise (fun f g => f.a2 ≤ g.a1) fs

/-- The spec's concrete scenario: snapshots `S0 = "a\nb\nc\n"`,
`S1 = "a\nB\nc\n"`, target `"a\nB\nC\n"`, run through `diffwith` and
`apply`. -/
def scenarioS0S1 : FileFixupState :=
  applyState (diffwith
    (mkFileFixupState [["a\n", "b\n", "c\n"], ["a\n", "B\n", "c\n"]])
    ["a\n", "B\n", "C\n"])

/-- A three-snapshot stack in which the newest content has adjacent lines
from two different non-public revisions, so that one 1:1 hunk produces two
per-line fixups with distinct target revisions. -/
def scenarioTwoRevs : FileFixupState :=
  diffwith
    (mkFileFixupState [["x\n"], ["x\n", "b\n"], ["x\n", "a\n", "b\n"]])
    ["x\n", "A\n", "B\n"]

/-- A four-snapshot stack whose full checkout contains a run of two deleted
lines followed later by a single deleted line: the gap computation then
records the later gap at position `3.5` instead of `2.5`. -/
def scenarioGapDrift : FileFixupState :=
  { mkFileFixupState
      [["a\n", "b\n", "c\n", "d\n", "e\n"],
       ["a\n", "d\n", "e\n"],
       ["a\n", "d\n", "u\n", "o\n", "v\n", "e\n"],
       ["a\n", "d\n", "u\n", "v\n", "e\n"]] with
    targetlines := ["a\n", "d\n", "U\n", "V\n", "e\n"] }

/-- Two adjacent per-line fixups for `scenarioGapDrift`, both rewriting one
line of revision 5 into its edit layer (revision 6): lines 2 (`u`) and 3
(`v`) of the newest content. -/
def gapDriftFixups : List Fixup :=
  [⟨6, 2, 3, 2, 3⟩, ⟨6, 3, 4, 3, 4⟩]

/-!
## Basic lemmas
-/

theorem halfAbove_eq (lineno : ℤ) : halfAbove lineno = (lineno : ℚ) + 1 / 2 := by
  have h : halfAbove lineno = Rat.divInt (2 * lineno + 1) ((2 : ℕ) : ℤ) :=
    Rat.mk'_eq_divInt
  rw [h, Rat.divInt_eq_div]
  push_cast
  ring

theorem head_dropWhile_not {α : Type} (p : α → Bool) :
    ∀ (l : List α) (x : α) (xs : List α),
      l.dropWhile p = x :: xs → p x = false := by
  intro l
  induction l with
  | nil => intro x xs h; simp [List.dropWhile] at h
  | cons a as ih =>
    intro x xs h
    rw [List.dropWhile_cons] at h
    by_cases hp : p a = true
    · rw [if_pos hp] at h
      exact ih x xs h
    · rw [if_neg hp] at h
      cases h
      simpa using hp

theorem intCast_lt_halfAbove (m k : ℤ) : (m : ℚ) < halfAbove k ↔ m ≤ k := by
  rw [halfAbove_eq]
  constructor
  · intro h
    by_contra hc
    push_neg at hc
    have h1 : (k : ℚ) + 1 ≤ (m : ℚ) := by exact_mod_cast hc
    linarith
  · intro h
    have h1 : (m : ℚ) ≤ (k : ℚ) := by exact_mod_cast h
    linarith

theorem intCast_le_halfAbove (m k : ℤ) : (m : ℚ) ≤ halfAbove k ↔ m ≤ k := by
  constructor
  · intro h
    by_contra hc
    push_neg at hc
    have h1 : (k : ℚ) + 1 ≤ (m : ℚ) := by exact_mod_cast hc
    rw [halfAbove_eq] at h
    linarith
  · intro h
    exact le_of_lt ((intCast_lt_halfAbove m k).mpr h)

theorem halfAbove_lt_intCast (k m : ℤ) : halfAbove k < (m : ℚ) ↔ k < m := by
  rw [← not_le, ← not_le, intCast_le_halfAbove]

theorem halfAbove_lt_halfAbove (a b : ℤ) : halfAbove a < halfAbove b ↔ a < b := by
  rw [halfAbove_eq, halfAbove_eq]
  constructor
  · intro h
    exact_mod_cast lt_of_add_lt_add_right h
  · intro h
    have h1 : (a : ℚ) < (b : ℚ) := by exact_mod_cast h
    linarith

/-- The gap list produced by the `_calculate_gap_lines` loop is strictly
increasing, and every recorded gap is a nonnegative half-integer position
at least `lineno + 0.5` (strictly above it when `last_gap_line = lineno`
on entry). -/
theorem calcGapLinesGo_spec (l : List AnnLine) :
    ∀ ln lg : ℤ,
      List.Pairwise (· < ·) (calcGapLinesGo ln lg l) ∧
      ∀ g ∈ calcGapLinesGo ln lg l,
        ∃ k : ℤ, 0 ≤ k ∧ ln ≤ k ∧ (lg = ln → ln < k) ∧ g = halfAbove k := by
  induction l with
  | nil => intro ln lg; simp [calcGapLinesGo]
  | cons x rest ih =>
    intro ln lg
    rw [calcGapLinesGo]
    by_cases hc : x.deleted = true ∧ ln ≠ lg ∧ 0 ≤ ln
    · rw [if_pos hc]
      obtain ⟨ihp, ihm⟩ := ih ln ln
      have htail : ∀ g ∈ calcGapLinesGo ln ln rest,
          ∃ k : ℤ, 0 ≤ k ∧ ln ≤ k ∧ ln < k ∧ g = halfAbove k := by
        intro g hg
        obtain ⟨k, hk0, hkln, hklt, hke⟩ := ihm g hg
        exact ⟨k, hk0, hkln, hklt rfl, hke⟩
      constructor
      · refine List.Pairwise.cons ?_ ihp
        intro g hg
        obtain ⟨k, -, -, hklt, hke⟩ := htail g hg
        rw [hke]
        exact (halfAbove_lt_halfAbove ln k).mpr hklt
      · intro g hg
        rcases List.mem_cons.mp hg with hg | hg
        · exact ⟨ln, hc.2.2, le_refl ln, fun h => absurd h.symm hc.2.1, hg⟩
        · obtain ⟨k, hk0, hkln, hklt, hke⟩ := htail g hg
          exact ⟨k, hk0, hkln, fun _ => hklt, hke⟩
    · rw [if_neg hc]
      obtain ⟨ihp, ihm⟩ := ih (ln + 1) lg
      refine ⟨ihp, ?_⟩
      intro g hg
      obtain ⟨k, hk0, hkln, -, hke⟩ := ihm g hg
      exact ⟨k, hk0, by omega, fun _ => by omega, hke⟩

/-- Every computed gap list is strictly increasing and consists of
nonnegative half-integer positions. -/
theorem calculate_gap_lines_spec (all_lines : List AnnLine) :
    List.Pairwise (· < ·) (calculate_gap_lines all_lines) ∧
    ∀ g ∈ calculate_gap_lines all_lines,
      ∃ k : ℤ, 0 ≤ k ∧ g = halfAbove k := by
  obtain ⟨hp, hm⟩ := calcGapLinesGo_spec all_lines (-1) (-1)
  refine ⟨hp, ?_⟩
  intro g hg
  obtain ⟨k, hk0, -, -, hke⟩ := hm g hg
  exact ⟨k, hk0, hke⟩

/-- `_iscontinuous` over a strictly increasing list of half-integer
positions returns `true` exactly when no recorded gap lies strictly
between `a1` and `a2`. -/
theorem iscontinuous_iff_no_gap_inside (gl : List ℚ) (a1 a2 : ℤ)
    (hsorted : List.Pairwise (· < ·) gl)
    (hhalf : ∀ g ∈ gl, ∃ k : ℤ, 0 ≤ k ∧ g = halfAbove k) :
    (iscontinuous gl a1 a2 = true ↔
      ¬ ∃ g ∈ gl, (a1 : ℚ) < g ∧ g < (a2 : ℚ)) := by
  rw [iscontinuous]
  by_cases ha : a1 ≥ a2
  · rw [if_pos ha]
    simp only [true_iff]
    rintro ⟨g, -, h1, h2⟩
    have : (a1 : ℚ) < (a2 : ℚ) := lt_trans h1 h2
    have : a1 < a2 := by exact_mod_cast this
    omega
  · rw [if_neg ha]
    push_neg at ha
    have hsplit : gl.takeWhile (fun g => g < (a1 : ℚ)) ++
        gl.dropWhile (fun g => g < (a1 : ℚ)) = gl :=
      List.takeWhile_append_dropWhile _ _
    set t := gl.takeWhile (fun g => g < (a1 : ℚ)) with ht
    set d := gl.dropWhile (fun g => g < (a1 : ℚ)) with hd
    have htlt : ∀ g ∈ t, g < (a1 : ℚ) := by
      intro g hg
      have := List.mem_takeWhile_imp hg
      exact_mod_cast of_decide_eq_true this
    by_cases hlen : bisect_left gl (a1 : ℚ) ≥ gl.length
    · rw [if_pos hlen]
      simp only [true_iff]
      rintro ⟨g, hg, h1, h2⟩
      have hdnil : d = [] := by
        have h1 : t.length ≥ gl.length := hlen
        have h2 : t.length + d.length = gl.length := by
          rw [← List.length_append, hsplit]
        exact List.eq_nil_of_length_eq_zero (by omega)
      have hgt : g ∈ t := by
        rw [← hsplit, hdnil, List.append_nil] at hg
        exact hg
      exact absurd h1 (not_lt.mpr (le_of_lt (htlt g hgt)))
    · rw [if_neg hlen]
      push_neg at hlen
      have hdlen : 0 < d.length := by
        have h2 : t.length + d.length = gl.length := by
          rw [← List.length_append, hsplit]
        have : bisect_left gl (a1 : ℚ) = t.length := rfl
        omega
      obtain ⟨g0, d', hd'⟩ : ∃ g0 d', d = g0 :: d' := by
        cases hdd : d with
        | nil => rw [hdd] at hdlen; simp at hdlen
        | cons g0 d' => exact ⟨g0, d', rfl⟩
      have hg0get : gl.getD (bisect_left gl (a1 : ℚ)) 0 = g0 := by
        have hidx : gl.get? t.length = some g0 := by
          conv_lhs => rw [← hsplit]
          rw [List.get?_append_right (le_refl t.length)]
          simp [hd']
        show gl.getD t.length 0 = g0
        rw [List.getD_eq_get?, hidx]
        rfl
      have hg0mem : g0 ∈ gl := by
        rw [← hsplit, hd']
        exact List.mem_append_right _ (List.mem_cons_self _ _)
      have hg0ge : (a1 : ℚ) ≤ g0 := by
        have hdd : gl.dropWhile (fun g => decide (g < (a1 : ℚ))) = g0 :: d' := by
          rw [← hd]
          exact hd'
        have hnot := head_dropWhile_not _ gl g0 d' hdd
        simp only [decide_eq_false_iff_not, not_lt] at hnot
        exact hnot
      have hg0gt : (a1 : ℚ) < g0 := by
        obtain ⟨k, -, hke⟩ := hhalf g0 hg0mem
        rcases lt_or_eq_of_le hg0ge with h | h
        · exact h
        · rw [hke] at h ⊢
          rw [intCast_lt_halfAbove]
          exact (intCast_le_halfAbove a1 k).mp (le_of_eq h)
      have hdga : ∀ g ∈ d, g0 ≤ g := by
        intro g hg
        rw [hd'] at hg
        rcases List.mem_cons.mp hg with h | h
        · rw [h]
        · have hdp : List.Pairwise (· < ·) d := by
            have := hsorted
            rw [← hsplit] at this
            exact (List.pairwise_append.mp this).2.1
          rw [hd'] at hdp
          exact le_of_lt ((List.pairwise_cons.mp hdp).1 g h)
      rw [hg0get]
      by_cases hle : (a2 : ℚ) ≤ g0
      · simp only [decide_eq_true_eq, hle, true_iff]
        rintro ⟨g, hg, h1, h2⟩
        rcases (List.mem_append.mp (by rw [hsplit]; exact hg)) with hgt | hgd
        · exact absurd h1 (not_lt.mpr (le_of_lt (htlt g hgt)))
        · exact absurd h2 (not_lt.mpr (le_trans hle (hdga g hgd)))
      · simp only [decide_eq_true_eq, hle, false_iff, not_not]
        exact ⟨g0, hg0mem, hg0gt, not_le.mp hle⟩

/-- `gap_lines` of a built file fixup state is the gap computation of the
full checkout of the linelog's maximum revision. -/
theorem gap_lines_mk_eq (contentlines : List (List String)) :
    (mkFileFixupState contentlines).gap_lines =
      calculate_gap_lines
        (checkout_lines_full (buildlinelog contentlines)
          (buildlinelog contentlines).maxrev) := rfl

theorem optimizefixups_nil (gap_lines : List ℚ) :
    optimizefixups gap_lines [] = [] := by
  simp [optimizefixups, pushchunk]

theorem optimizefixups_singleton (gap_lines : List ℚ) (f : Fixup)
    (h : f.rev ≠ -1) : optimizefixups gap_lines [f] = [f] := by
  have hstep : optimizeStep gap_lines ([], ⟨-1, -1, -1, -1, -1⟩) f = ([], f) := by
    rw [optimizeStep, if_neg, pushchunk, if_neg]
    · simp
    · rintro ⟨-, -, h3, -⟩
      exact h h3
  unfold optimizefixups
  rw [List.foldl_cons, List.foldl_nil, hstep, pushchunk]
  simp [h]

theorem dedup_eq_singleton_of_forall {l : List ℕ} {a : ℕ} (hne : l ≠ [])
    (hall : ∀ x ∈ l, x = a) : l.dedup = [a] := by
  induction l with
  | nil => exact absurd rfl hne
  | cons x xs ih =>
    have hx : x = a := hall x (List.mem_cons_self _ _)
    cases hxs : xs with
    | nil => simp [List.dedup_cons_of_not_mem, hx]
    | cons y ys =>
      have hxs' : xs ≠ [] := by simp [hxs]
      have hmem : x ∈ xs := by
        have hy : y = a := hall y (by simp [hxs])
        simp [hxs, hx, hy]
      rw [← hxs, List.dedup_cons_of_mem hmem]
      exact ih hxs' (fun z hz => hall z (List.mem_cons_of_mem _ hz))

theorem mem_slice_of_get? {annotated : List AnnLine} {a1 a2 i : ℕ}
    {l : AnnLine} (h1 : a1 ≤ i) (h2 : i < a2) (h : annotated.get? i = some l) :
    l ∈ (annotated.drop a1).take (a2 - a1) := by
  have hidx : ((annotated.drop a1).take (a2 - a1)).get? (i - a1) = some l := by
    rw [List.get?_take (by omega), List.get?_drop]
    rw [show a1 + (i - a1) = i by omega]
    exact h
  exact List.get?_mem hidx

theorem commonPrefixLen_nil_left (b : List String) :
    commonPrefixLen [] b = 0 := by
  cases b <;> rfl

theorem commonPrefixLen_cons (x : String) (xs : List String) (y : String)
    (ys : List String) :
    commonPrefixLen (x :: xs) (y :: ys) =
      if x = y then commonPrefixLen xs ys + 1 else 0 := rfl

theorem commonPrefixLen_le_left (a b : List String) :
    commonPrefixLen a b ≤ a.length := by
  induction a generalizing b with
  | nil => simp [commonPrefixLen_nil_left]
  | cons x xs ih =>
    cases b with
    | nil => simp [show commonPrefixLen (x :: xs) [] = 0 from rfl]
    | cons y ys =>
      rw [commonPrefixLen_cons]
      by_cases h : x = y
      · rw [if_pos h]
        have := ih ys
        simp only [List.length_cons]
        omega
      · rw [if_neg h]
        simp

theorem commonPrefixLen_le_right (a b : List String) :
    commonPrefixLen a b ≤ b.length := by
  induction a generalizing b with
  | nil => simp [commonPrefixLen_nil_left]
  | cons x xs ih =>
    cases b with
    | nil => simp [show commonPrefixLen (x :: xs) [] = 0 from rfl]
    | cons y ys =>
      rw [commonPrefixLen_cons]
      by_cases h : x = y
      · rw [if_pos h]
        have := ih ys
        simp only [List.length_cons]
        omega
      · rw [if_neg h]
        simp

/-- The diff returns no chunk or exactly one well-formed chunk. -/
theorem alldiffchunks_shape (a b : List String) :
    alldiffchunks a b = [] ∨
    ∃ c : ℕ × ℕ × ℕ × ℕ, alldiffchunks a b = [c] ∧
      c.1 ≤ c.2.1 ∧ c.2.2.1 ≤ c.2.2.2 ∧ c.2.1 ≤ a.length ∧
      c.1 = c.2.2.1 := by
  rw [alldiffchunks]
  by_cases h : a.length - commonPrefixLen a b =
      commonPrefixLen (a.drop (commonPrefixLen a b)).reverse
        (b.drop (commonPrefixLen a b)).reverse ∧
      b.length - commonPrefixLen a b =
      commonPrefixLen (a.drop (commonPrefixLen a b)).reverse
        (b.drop (commonPrefixLen a b)).reverse
  · rw [if_pos h]
    exact Or.inl rfl
  · rw [if_neg h]
    refine Or.inr ⟨_, rfl, ?_, ?_, ?_, rfl⟩
    · have h1 := commonPrefixLen_le_left a b
      have h2 := commonPrefixLen_le_left
        (a.drop (commonPrefixLen a b)).reverse
        (b.drop (commonPrefixLen a b)).reverse
      rw [List.length_reverse, List.length_drop] at h2
      simp only
      omega
    · have h1 := commonPrefixLen_le_right a b
      have h2 := commonPrefixLen_le_right
        (a.drop (commonPrefixLen a b)).reverse
        (b.drop (commonPrefixLen a b)).reverse
      rw [List.length_reverse, List.length_drop] at h2
      simp only
      omega
    · simp only
      omega

/-- Shape of a per-line fixup. -/
theorem perLineFixup_spec {a1 b1 b2 : ℕ} {annotated : List AnnLine} {i : ℕ}
    {f : Fixup} (hf : f ∈ perLineFixup a1 b1 b2 annotated i) :
    ∃ l, annotated.get? i = some l ∧ 1 < l.rev ∧
      f.rev = (l.rev : ℤ) + 1 ∧ f.a1 = (i : ℤ) ∧ f.a2 = (i : ℤ) + 1 := by
  rw [perLineFixup] at hf
  split at hf
  next l heq =>
    split at hf
    next hrev =>
      rw [Option.mem_some_iff] at hf
      subst hf
      exact ⟨l, heq, hrev, rfl, rfl, rfl⟩
    next => simp at hf
  next => simp at hf

/-- The raw fixups of one chunk are ordered with mutually disjoint delete
ranges, each is well-formed, and none carries the sentinel revision. -/
theorem analyseChunkRaw_sorted (gap_lines : List ℚ) (chunk : ℕ × ℕ × ℕ × ℕ)
    (annotated : List AnnLine) (hc : chunk.1 ≤ chunk.2.1) :
    List.Pairwise (fun f g => f.a2 ≤ g.a1)
      (analyseChunkRaw gap_lines chunk annotated) ∧
    ∀ f ∈ analyseChunkRaw gap_lines chunk annotated,
      f.a1 ≤ f.a2 ∧ f.rev ≠ -1 := by
  rw [analyseChunkRaw]
  split
  · split
    · split
      · constructor
        · exact List.pairwise_singleton _ _
        · intro f hf
          rw [List.mem_singleton] at hf
          subst hf
          dsimp only
          constructor
          · exact_mod_cast hc
          · omega
      · simp
    · simp
  · split
    · constructor
      · refine List.Pairwise.filterMap _ ?_ (List.pairwise_lt_range' _ _)
        intro i j hij f hf g hg
        obtain ⟨-, -, -, -, -, hfa2⟩ := perLineFixup_spec hf
        obtain ⟨-, -, -, -, hga1, -⟩ := perLineFixup_spec hg
        rw [hfa2, hga1]
        omega
      · intro f hf
        obtain ⟨i, -, hfi⟩ := List.mem_filterMap.mp hf
        obtain ⟨l, -, -, hfrev, hfa1, hfa2⟩ := perLineFixup_spec hfi
        refine ⟨by omega, ?_⟩
        rw [hfrev]
        omega
    · simp

theorem mem_pushchunk {res : List Fixup} {p r : Fixup}
    (h : r ∈ pushchunk res p) : r ∈ res ∨ (r = p ∧ p.rev ≠ -1) := by
  rw [pushchunk] at h
  by_cases hp : p.rev ≠ -1
  · rw [if_pos hp] at h
    rcases List.mem_append.mp h with h | h
    · exact Or.inl h
    · rw [List.mem_singleton] at h
      exact Or.inr ⟨h, hp⟩
  · rw [if_neg hp] at h
    exact Or.inl h

theorem pushchunk_pairwise {res : List Fixup} {p : Fixup}
    (hres : List.Pairwise (fun f g => f.a2 ≤ g.a1) res)
    (hrp : ∀ r ∈ res, p.rev = -1 ∨ r.a2 ≤ p.a1) :
    List.Pairwise (fun f g => f.a2 ≤ g.a1) (pushchunk res p) := by
  rw [pushchunk]
  by_cases hp : p.rev ≠ -1
  · rw [if_pos hp]
    rw [List.pairwise_append]
    refine ⟨hres, List.pairwise_singleton _ _, ?_⟩
    intro r hr q hq
    rw [List.mem_singleton] at hq
    subst hq
    rcases hrp r hr with h | h
    · exact absurd h hp
    · exact h
  · rw [if_neg hp]
    exact hres

/-- Invariant of the `_optimizefixups` fold: starting from sorted
well-formed inputs and a consistent accumulator, the final pushed result is
sorted with disjoint ranges and well-formed. -/
theorem optimize_fold_sorted (gap_lines : List ℚ) :
    ∀ (fs res : List Fixup) (pcur : Fixup),
      List.Pairwise (fun f g => f.a2 ≤ g.a1) fs →
      (∀ f ∈ fs, f.a1 ≤ f.a2 ∧ f.rev ≠ -1) →
      List.Pairwise (fun f g => f.a2 ≤ g.a1) res →
      (∀ r ∈ res, r.a1 ≤ r.a2) →
      (∀ r ∈ res, ∀ f ∈ fs, r.a2 ≤ f.a1) →
      (∀ r ∈ res, pcur.rev = -1 ∨ r.a2 ≤ pcur.a1) →
      (pcur.rev = -1 ∨ pcur.a1 ≤ pcur.a2) →
      (pcur.rev = -1 ∨ ∀ f ∈ fs, pcur.a2 ≤ f.a1) →
      List.Pairwise (fun f g => f.a2 ≤ g.a1)
        (pushchunk (fs.foldl (optimizeStep gap_lines) (res, pcur)).1
          (fs.foldl (optimizeStep gap_lines) (res, pcur)).2) ∧
      ∀ r ∈ pushchunk (fs.foldl (optimizeStep gap_lines) (res, pcur)).1
          (fs.foldl (optimizeStep gap_lines) (res, pcur)).2, r.a1 ≤ r.a2 := by
  intro fs
  induction fs with
  | nil =>
    intro res pcur _ _ hres hreswf hrf hrp hpwf hpf
    rw [List.foldl_nil]
    refine ⟨pushchunk_pairwise hres hrp, ?_⟩
    intro r hr
    rcases mem_pushchunk hr with h | ⟨h, hne⟩
    · exact hreswf r h
    · subst h
      rcases hpwf with h | h
      · exact absurd h hne
      · exact h
  | cons c rest ih =>
    intro res pcur hfs hfwf hres hreswf hrf hrp hpwf hpf
    rw [List.foldl_cons]
    obtain ⟨hcrest, hrestp⟩ := List.pairwise_cons.mp hfs
    have hcwf := hfwf c (List.mem_cons_self _ _)
    by_cases hcond : c.a1 = pcur.a2 ∧ c.b1 = pcur.b2 ∧ c.rev = pcur.rev ∧
        iscontinuous gap_lines (max (c.a1 - 1) 0) c.a1 = true
    · rw [optimizeStep, if_pos hcond]
      have hprev : pcur.rev ≠ -1 := by
        rw [← hcond.2.2.1]
        exact hcwf.2
      refine ih res _ hrestp
        (fun f hf => hfwf f (List.mem_cons_of_mem _ hf)) hres hreswf
        (fun r hr f hf => hrf r hr f (List.mem_cons_of_mem _ hf)) ?_ ?_ ?_
      · intro r hr
        rcases hrp r hr with h | h
        · exact absurd h hprev
        · exact Or.inr h
      · refine Or.inr ?_
        rcases hpwf with h | h
        · exact absurd h hprev
        · have h1 : c.a1 = pcur.a2 := hcond.1
          have h2 : c.a1 ≤ c.a2 := hcwf.1
          show pcur.a1 ≤ c.a2
          omega
      · exact Or.inr (fun f hf => hcrest f hf)
    · rw [optimizeStep, if_neg hcond]
      refine ih (pushchunk res pcur) c hrestp
        (fun f hf => hfwf f (List.mem_cons_of_mem _ hf))
        (pushchunk_pairwise hres hrp) ?_ ?_ ?_ (Or.inr hcwf.1)
        (Or.inr (fun f hf => hcrest f hf))
      · intro r hr
        rcases mem_pushchunk hr with h | ⟨h, hne⟩
        · exact hreswf r h
        · subst h
          rcases hpwf with h | h
          · exact absurd h hne
          · exact h
      · intro r hr f hf
        rcases mem_pushchunk hr with h | ⟨h, hne⟩
        · exact hrf r h f (List.mem_cons_of_mem _ hf)
        · subst h
          rcases hpf with h | h
          · exact absurd h hne
          · exact h f (List.mem_cons_of_mem _ hf)
      · intro r hr
        refine Or.inr ?_
        rcases mem_pushchunk hr with h | ⟨h, hne⟩
        · exact hrf r h c (List.mem_cons_self _ _)
        · subst h
          rcases hpf with h | h
          · exact absurd h hne
          · exact h c (List.mem_cons_self _ _)

/-- `_optimizefixups` of a sorted well-formed fixup list is sorted with
disjoint ranges and well-formed. -/
theorem optimizefixups_sorted (gap_lines : List ℚ) (fs : List Fixup)
    (h1 : List.Pairwise (fun f g => f.a2 ≤ g.a1) fs)
    (h2 : ∀ f ∈ fs, f.a1 ≤ f.a2 ∧ f.rev ≠ -1) :
    List.Pairwise (fun f g => f.a2 ≤ g.a1) (optimizefixups gap_lines fs) ∧
    ∀ r ∈ optimizefixups gap_lines fs, r.a1 ≤ r.a2 := by
  have h := optimize_fold_sorted gap_lines fs [] ⟨-1, -1, -1, -1, -1⟩ h1 h2
    (List.Pairwise.nil) (by simp) (by simp) (by simp)
    (Or.inl rfl) (Or.inl rfl)
  exact h

/-- `diffwith` records either no fixups or the fixups of the single change
hunk of the (prefix/suffix-trimming) diff. -/
theorem diffwith_fixups_shape (s : FileFixupState) (blines : List String) :
    (diffwith s blines).fixups = [] ∨
    ∃ c : ℕ × ℕ × ℕ × ℕ, c.1 ≤ c.2.1 ∧
      (diffwith s blines).fixups =
        analysediffchunk s.gap_lines c
          (fixEndLine (checkout_lines s.linelog s.linelog.maxrev)) := by
  rcases alldiffchunks_shape ((s.contentlines.getLast?).getD []) blines with
    h | ⟨c, hc, hwf, -, -, -⟩
  · refine Or.inl ?_
    rw [diffwith]
    simp only [h, List.foldl_nil]
  · refine Or.inr ⟨c, hwf, ?_⟩
    rw [diffwith]
    simp only [hc, List.foldl_cons, List.foldl_nil, List.nil_append]

theorem editChunkGo_rev_pres (arev brev : ℕ) (a1 a2 : ℤ)
    (ins : List LineEntry) (P : ℕ → Prop) (hins : ∀ e ∈ ins, P e.rev) :
    ∀ (cnt : ℤ) (l : List LineEntry), (∀ e ∈ l, P e.rev) →
      ∀ e ∈ editChunkGo arev brev a1 a2 ins cnt l, P e.rev := by
  intro cnt l
  induction l generalizing cnt with
  | nil =>
    intro hl e he
    rw [editChunkGo] at he
    split at he
    · exact hins e he
    · simp at he
  | cons x rest ih =>
    intro hl e he
    have hx : P x.rev := hl x (List.mem_cons_self _ _)
    have hrest : ∀ e ∈ rest, P e.rev :=
      fun e he => hl e (List.mem_cons_of_mem _ he)
    rw [editChunkGo] at he
    split at he
    · rcases List.mem_append.mp he with h | h
      · split at h
        · exact hins e h
        · simp at h
      · rcases List.mem_cons.mp h with h | h
        · subst h
          by_cases hm : a1 ≤ cnt ∧ cnt < a2
          · rw [if_pos hm]
            exact hx
          · rw [if_neg hm]
            exact hx
        · exact ih (cnt + 1) hrest e h
    · rcases List.mem_cons.mp he with h | h
      · subst h
        exact hx
      · exact ih cnt hrest e h

theorem edit_chunk_rev_pres (log : LineLog) (arev : ℕ) (a1 a2 : ℤ)
    (brev : ℕ) (b1 b2 : ℤ) (P : ℕ → Prop)
    (hlog : ∀ e ∈ log.entries, P e.rev) (hb : P brev) :
    ∀ e ∈ (edit_chunk log arev a1 a2 brev b1 b2).entries, P e.rev := by
  intro e he
  simp only [edit_chunk] at he
  refine editChunkGo_rev_pres arev brev a1 a2 _ P ?_ 0 log.entries hlog e he
  intro x hx
  obtain ⟨k, -, hk⟩ := List.mem_map.mp hx
  rw [← hk]
  exact hb

theorem buildStep_fold_odd :
    ∀ (tail : List (List String)) (acc : LineLog × List String × ℕ),
      (∀ e ∈ acc.1.entries, e.rev % 2 = 1) →
      ∀ e ∈ (tail.foldl buildStep acc).1.entries, e.rev % 2 = 1 := by
  intro tail
  induction tail with
  | nil =>
    intro acc h
    simpa using h
  | cons b rest ih =>
    intro acc h
    rw [List.foldl_cons]
    refine ih _ ?_
    simp only [buildStep]
    have hfold : ∀ (chunks : List (ℕ × ℕ × ℕ × ℕ)) (L : LineLog),
        (∀ e ∈ L.entries, e.rev % 2 = 1) →
        ∀ e ∈ (chunks.foldl (fun L c => edit_chunk L (2 * acc.2.2 + 1)
          (c.1 : ℤ) (c.2.1 : ℤ) (2 * acc.2.2 + 1)
          (c.2.2.1 : ℤ) (c.2.2.2 : ℤ)) L).entries, e.rev % 2 = 1 := by
      intro chunks
      induction chunks with
      | nil =>
        intro L hL
        simpa using hL
      | cons c cs ih2 =>
        intro L hL
        rw [List.foldl_cons]
        exact ih2 _ (edit_chunk_rev_pres _ _ _ _ _ _ _ (fun r => r % 2 = 1)
          hL (by show (2 * acc.2.2 + 1) % 2 = 1; omega))
    exact hfold _ _ h

/-- Every line record of a freshly built linelog carries an odd revision:
`_buildlinelog` only ever inserts at the odd revisions `2*i + 1`. -/
theorem buildlinelog_rev_odd (cs : List (List String)) :
    ∀ e ∈ (buildlinelog cs).entries, e.rev % 2 = 1 := by
  intro e he
  simp only [buildlinelog] at he
  exact buildStep_fold_odd cs (⟨[], 0⟩, [], 0) (by simp) e he

theorem checkout_lines_revs (log : LineLog) (r : ℕ) (P : ℕ → Prop)
    (hP : ∀ e ∈ log.entries, P e.rev) (h0 : P 0) :
    ∀ l ∈ checkout_lines log r, P l.rev := by
  intro l hl
  rw [checkout_lines] at hl
  rcases List.mem_append.mp hl with h | h
  · obtain ⟨e, he, hel⟩ := List.mem_map.mp h
    rw [← hel]
    exact hP e (List.mem_of_mem_filter he)
  · rw [List.mem_singleton] at h
    subst h
    exact h0

theorem fixEndLine_revs (ann : List AnnLine) (P : ℕ → Prop) (h0 : P 0)
    (h : ∀ l ∈ ann, P l.rev) : ∀ l ∈ fixEndLine ann, P l.rev := by
  intro l hl
  rw [fixEndLine] at hl
  split at hl
  next hlen =>
    rcases List.mem_append.mp hl with hm | hm
    · exact h l ((List.dropLast_sublist ann).subset hm)
    · rw [List.mem_singleton] at hm
      subst hm
      have hidx : ann.length - 2 < ann.length := by omega
      have hget : ann.getD (ann.length - 2) default =
          ann.get ⟨ann.length - 2, hidx⟩ := by
        rw [List.getD_eq_get?, List.get?_eq_get hidx]
        rfl
      show P (ann.getD (ann.length - 2) default).rev
      rw [hget]
      exact h _ (ann.get_mem _ _)
  next => exact h l hl

theorem involvedLines_subset (chunk : ℕ × ℕ × ℕ × ℕ) (ann : List AnnLine) :
    ∀ l ∈ involvedLines chunk ann, l ∈ ann := by
  intro l hl
  rw [involvedLines] at hl
  split at hl
  · obtain ⟨i, -, hli⟩ := List.mem_filterMap.mp hl
    split at hli
    next l' heq =>
      split at hli
      · rw [Option.some_inj] at hli
        subst hli
        exact List.get?_mem heq
      · simp at hli
    next => simp at hli
  · exact (List.drop_sublist _ _).subset
      ((List.take_sublist _ _).subset hl)

/-- Every raw fixup of one chunk targets the successor of the revision of
some annotated line whose revision exceeds 1. -/
theorem analyseChunkRaw_revs (gap_lines : List ℚ) (chunk : ℕ × ℕ × ℕ × ℕ)
    (ann : List AnnLine) :
    ∀ f ∈ analyseChunkRaw gap_lines chunk ann,
      ∃ l ∈ ann, 1 < l.rev ∧ f.rev = (l.rev : ℤ) + 1 := by
  intro f hf
  rw [analyseChunkRaw] at hf
  split at hf
  · split at hf
    next rev hhead =>
      split at hf
      next hrev =>
        rw [List.mem_singleton] at hf
        subst hf
        have hmem : rev ∈ ((involvedLines chunk ann).map (·.rev)).dedup :=
          List.mem_of_mem_head? (Option.mem_def.mpr hhead)
        rw [List.mem_dedup] at hmem
        obtain ⟨l, hl, hlr⟩ := List.mem_map.mp hmem
        refine ⟨l, involvedLines_subset _ _ l hl, ?_, ?_⟩
        · rw [hlr]
          exact hrev
        · rw [hlr]
      next => simp at hf
    next => simp at hf
  · split at hf
    · obtain ⟨i, -, hfi⟩ := List.mem_filterMap.mp hf
      obtain ⟨l, hget, hrev, hfrev, -, -⟩ := perLineFixup_spec hfi
      exact ⟨l, List.get?_mem hget, hrev, hfrev⟩
    · simp at hf

theorem optimize_fold_rev_pres (gap_lines : List ℚ) (Q : ℤ → Prop) :
    ∀ (fs res : List Fixup) (pcur : Fixup),
      (∀ f ∈ fs, Q f.rev) → (∀ r ∈ res, Q r.rev) →
      (pcur.rev = -1 ∨ Q pcur.rev) →
      ∀ f ∈ pushchunk (fs.foldl (optimizeStep gap_lines) (res, pcur)).1
          (fs.foldl (optimizeStep gap_lines) (res, pcur)).2, Q f.rev := by
  intro fs
  induction fs with
  | nil =>
    intro res pcur _ hres hp f hf
    rw [List.foldl_nil] at hf
    rcases mem_pushchunk hf with h | ⟨h, hne⟩
    · exact hres f h
    · subst h
      rcases hp with h | h
      · exact absurd h hne
      · exact h
  | cons c rest ih =>
    intro res pcur hfs hres hp f hf
    rw [List.foldl_cons] at hf
    by_cases hcond : c.a1 = pcur.a2 ∧ c.b1 = pcur.b2 ∧ c.rev = pcur.rev ∧
        iscontinuous gap_lines (max (c.a1 - 1) 0) c.a1 = true
    · rw [optimizeStep, if_pos hcond] at hf
      dsimp only at hf
      exact ih res ⟨pcur.rev, pcur.a1, c.a2, pcur.b1, c.b2⟩
        (fun g hg => hfs g (List.mem_cons_of_mem _ hg)) hres hp f hf
    · rw [optimizeStep, if_neg hcond] at hf
      refine ih (pushchunk res pcur) c
        (fun g hg => hfs g (List.mem_cons_of_mem _ hg)) ?_
        (Or.inr (hfs c (List.mem_cons_self _ _))) f hf
      intro r hr
      rcases mem_pushchunk hr with h | ⟨h, hne⟩
      · exact hres r h
      · subst h
        rcases hp with h | h
        · exact absurd h hne
        · exact h

/-- `_optimizefixups` introduces no new target revisions. -/
theorem optimizefixups_rev_pres (gap_lines : List ℚ) (Q : ℤ → Prop)
    (fs : List Fixup) (h : ∀ f ∈ fs, Q f.rev) :
    ∀ f ∈ optimizefixups gap_lines fs, Q f.rev :=
  fun f hf =>
    optimize_fold_rev_pres gap_lines Q fs [] ⟨-1, -1, -1, -1, -1⟩ h
      (by simp) (Or.inl rfl) f hf

theorem visibleAt_marked (r ρ : ℕ) (e : LineEntry) (h : ρ ≤ r) :
    visibleAt r { e with delRev := some ρ } = false := by
  rw [visibleAt]
  have hlt : ¬ (r < ρ) := by omega
  simp [hlt]

/-- Filtered view of the document after `editChunkGo` has passed the
insertion point: the remaining marked lines disappear from every checkout
at or above the marking revision. -/
theorem editChunkGo_filter_after (ρ r : ℕ) (a1 a2 : ℤ)
    (ins : List LineEntry) (hρr : ρ ≤ r)
    (hins : ∀ e ∈ ins, visibleAt r e = true) :
    ∀ (l : List LineEntry) (cnt : ℤ),
      (∀ e ∈ l, visibleAt r e = visibleAt ρ e) → a1 < cnt →
      (editChunkGo ρ ρ a1 a2 ins cnt l).filter (visibleAt r)
        = (l.filter (visibleAt ρ)).drop (a2 - cnt).toNat := by
  intro l
  induction l with
  | nil =>
    intro cnt hstab hcnt
    rw [editChunkGo, if_neg (by omega)]
    simp
  | cons e rest ih =>
    intro cnt hstab hcnt
    have hstabe := hstab e (List.mem_cons_self _ _)
    have hstabr : ∀ x ∈ rest, visibleAt r x = visibleAt ρ x :=
      fun x hx => hstab x (List.mem_cons_of_mem _ hx)
    rw [editChunkGo]
    by_cases hv : visibleAt ρ e = true
    · rw [if_pos hv, if_neg (by omega : ¬ cnt = a1), List.nil_append]
      by_cases hm : cnt < a2
      · rw [if_pos ⟨by omega, hm⟩]
        rw [List.filter_cons_of_neg (by
          rw [visibleAt_marked r ρ e hρr]
          simp)]
        rw [ih (cnt + 1) hstabr (by omega)]
        rw [List.filter_cons_of_pos hv]
        rw [show (a2 - cnt).toNat = (a2 - (cnt + 1)).toNat + 1 from by omega]
        rw [List.drop_succ_cons]
      · rw [if_neg (by omega : ¬ (a1 ≤ cnt ∧ cnt < a2))]
        rw [List.filter_cons_of_pos (by rw [hstabe]; exact hv)]
        rw [ih (cnt + 1) hstabr (by omega)]
        rw [List.filter_cons_of_pos hv]
        rw [show (a2 - (cnt + 1)).toNat = 0 from by omega,
            show (a2 - cnt).toNat = 0 from by omega]
        rw [List.drop_zero, List.drop_zero]
    · rw [if_neg hv]
      rw [List.filter_cons_of_neg (by rw [hstabe]; exact hv),
          List.filter_cons_of_neg hv]
      exact ih cnt hstabr hcnt

/-- Filtered view of `editChunkGo` from before the insertion point: at any
checkout at or above the edit revision, the edit replaces the visible lines
`[a1, a2)` by the inserted records. -/
theorem editChunkGo_filter_before (ρ r : ℕ) (a1 a2 : ℤ)
    (ins : List LineEntry) (hρr : ρ ≤ r)
    (hins : ∀ e ∈ ins, visibleAt r e = true) (ha : a1 ≤ a2) :
    ∀ (l : List LineEntry) (cnt : ℤ),
      (∀ e ∈ l, visibleAt r e = visibleAt ρ e) → cnt ≤ a1 →
      (editChunkGo ρ ρ a1 a2 ins cnt l).filter (visibleAt r)
        = (l.filter (visibleAt ρ)).take (a1 - cnt).toNat ++ ins
          ++ (l.filter (visibleAt ρ)).drop (a2 - cnt).toNat := by
  intro l
  induction l with
  | nil =>
    intro cnt hstab hcnt
    rw [editChunkGo, if_pos hcnt]
    rw [List.filter_eq_self.mpr hins]
    simp
  | cons e rest ih =>
    intro cnt hstab hcnt
    have hstabe := hstab e (List.mem_cons_self _ _)
    have hstabr : ∀ x ∈ rest, visibleAt r x = visibleAt ρ x :=
      fun x hx => hstab x (List.mem_cons_of_mem _ hx)
    rw [editChunkGo]
    by_cases hv : visibleAt ρ e = true
    · rw [if_pos hv]
      by_cases hceq : cnt = a1
      · rw [if_pos hceq]
        rw [List.filter_append, List.filter_eq_self.mpr hins]
        by_cases hlt : cnt < a2
        · rw [if_pos ⟨by omega, hlt⟩]
          rw [List.filter_cons_of_neg (by
            rw [visibleAt_marked r ρ e hρr]
            simp)]
          rw [editChunkGo_filter_after ρ r a1 a2 ins hρr hins rest (cnt + 1)
            hstabr (by omega)]
          rw [List.filter_cons_of_pos hv]
          rw [show (a1 - cnt).toNat = 0 from by omega]
          rw [List.take_zero, List.nil_append]
          rw [show (a2 - cnt).toNat = (a2 - (cnt + 1)).toNat + 1 from by omega]
          rw [List.drop_succ_cons]
        · rw [if_neg (by omega : ¬ (a1 ≤ cnt ∧ cnt < a2))]
          rw [List.filter_cons_of_pos (by rw [hstabe]; exact hv)]
          rw [editChunkGo_filter_after ρ r a1 a2 ins hρr hins rest (cnt + 1)
            hstabr (by omega)]
          rw [List.filter_cons_of_pos hv]
          rw [show (a2 - (cnt + 1)).toNat = 0 from by omega,
              show (a2 - cnt).toNat = 0 from by omega,
              show (a1 - cnt).toNat = 0 from by omega]
          rw [List.drop_zero, List.drop_zero, List.take_zero, List.nil_append]
      · rw [if_neg hceq, List.nil_append]
        rw [if_neg (by omega : ¬ (a1 ≤ cnt ∧ cnt < a2))]
        rw [List.filter_cons_of_pos (by rw [hstabe]; exact hv)]
        rw [ih (cnt + 1) hstabr (by omega)]
        rw [List.filter_cons_of_pos hv]
        rw [show (a1 - cnt).toNat = (a1 - (cnt + 1)).toNat + 1 from by omega]
        rw [List.take_succ_cons]
        rw [show (a2 - cnt).toNat = (a2 - (cnt + 1)).toNat + 1 from by omega]
        rw [List.drop_succ_cons]
        rw [List.cons_append, List.cons_append]
    · rw [if_neg hv]
      rw [List.filter_cons_of_neg (by rw [hstabe]; exact hv),
          List.filter_cons_of_neg hv]
      exact ih cnt hstabr hcnt

theorem commonPrefixLen_self (a : List String) :
    commonPrefixLen a a = a.length := by
  induction a with
  | nil => rfl
  | cons x xs ih =>
    rw [commonPrefixLen_cons, if_pos rfl, ih]
    rfl

theorem alldiffchunks_self (a : List String) : alldiffchunks a a = [] := by
  rw [alldiffchunks]
  simp [commonPrefixLen_self, List.drop_length, commonPrefixLen_nil_left]

theorem commonPrefixLen_take_eq (a b : List String) :
    a.take (commonPrefixLen a b) = b.take (commonPrefixLen a b) := by
  induction a generalizing b with
  | nil =>
    rw [commonPrefixLen_nil_left]
    rfl
  | cons x xs ih =>
    cases b with
    | nil => rfl
    | cons y ys =>
      rw [commonPrefixLen_cons]
      by_cases h : x = y
      · rw [if_pos h, List.take_succ_cons, List.take_succ_cons, h, ih ys]
      · rw [if_neg h]
        rfl

theorem commonPrefixLen_full_eq (a b : List String)
    (h1 : commonPrefixLen a b = a.length)
    (h2 : commonPrefixLen a b = b.length) : a = b := by
  have hlen : a.length = b.length := Eq.trans h1.symm h2
  have h3 := commonPrefixLen_take_eq a b
  rw [h1, List.take_length, hlen, List.take_length] at h3
  exact h3

theorem alldiffchunks_eq_nil {a b : List String}
    (h : alldiffchunks a b = []) : a = b := by
  rw [alldiffchunks] at h
  by_cases hc : a.length - commonPrefixLen a b =
      commonPrefixLen (a.drop (commonPrefixLen a b)).reverse
        (b.drop (commonPrefixLen a b)).reverse ∧
      b.length - commonPrefixLen a b =
      commonPrefixLen (a.drop (commonPrefixLen a b)).reverse
        (b.drop (commonPrefixLen a b)).reverse
  · have hpa := commonPrefixLen_le_left a b
    have hpb := commonPrefixLen_le_right a b
    have hXY : (a.drop (commonPrefixLen a b)).reverse =
        (b.drop (commonPrefixLen a b)).reverse := by
      refine commonPrefixLen_full_eq _ _ ?_ ?_
      · rw [List.length_reverse, List.length_drop]
        omega
      · rw [List.length_reverse, List.length_drop]
        omega
    have hdrop : a.drop (commonPrefixLen a b) = b.drop (commonPrefixLen a b) :=
      List.reverse_injective hXY
    calc a = a.take (commonPrefixLen a b) ++ a.drop (commonPrefixLen a b) :=
          (List.take_append_drop _ a).symm
    _ = b.take (commonPrefixLen a b) ++ b.drop (commonPrefixLen a b) := by
          rw [commonPrefixLen_take_eq a b, hdrop]
    _ = b := List.take_append_drop _ b
  · rw [if_neg hc] at h
    simp at h

theorem range_map_getD (b : List String) :
    ∀ (n p : ℕ), p + n ≤ b.length →
      (List.range n).map (fun k => b.getD (p + k) "") = (b.drop p).take n := by
  intro n
  induction n with
  | zero =>
    intro p h
    simp
  | succ m ih =>
    intro p h
    rw [List.range_succ, List.map_append, ih p (by omega)]
    rw [List.take_succ]
    congr 1
    rw [List.getElem?_drop]
    have hm : p + m < b.length := by omega
    rw [List.getElem?_eq_getElem hm]
    rw [List.map_singleton, List.getD_eq_getElem?_getD,
        List.getElem?_eq_getElem hm]
    rfl

theorem editChunkGo_entries_pres (arev brev : ℕ) (a1 a2 : ℤ)
    (ins : List LineEntry) (P : LineEntry → Prop)
    (hins : ∀ e ∈ ins, P e) :
    ∀ (cnt : ℤ) (l : List LineEntry),
      (∀ e ∈ l, P e ∧ P { e with delRev := some brev }) →
      ∀ x ∈ editChunkGo arev brev a1 a2 ins cnt l, P x := by
  intro cnt l
  induction l generalizing cnt with
  | nil =>
    intro hl x hx
    rw [editChunkGo] at hx
    split at hx
    · exact hins x hx
    · simp at hx
  | cons e rest ih =>
    intro hl x hx
    have he := hl e (List.mem_cons_self _ _)
    have hrest : ∀ y ∈ rest, P y ∧ P { y with delRev := some brev } :=
      fun y h => hl y (List.mem_cons_of_mem _ h)
    rw [editChunkGo] at hx
    split at hx
    · rcases List.mem_append.mp hx with h | h
      · split at h
        · exact hins x h
        · simp at h
      · rcases List.mem_cons.mp h with h | h
        · subst h
          by_cases hm : a1 ≤ cnt ∧ cnt < a2
          · rw [if_pos hm]
            exact he.2
          · rw [if_neg hm]
            exact he.1
        · exact ih (cnt + 1) hrest x h
    · rcases List.mem_cons.mp hx with h | h
      · subst h
        exact he.1
      · exact ih cnt hrest x h

theorem buildStep_fst (L : LineLog) (a : List String) (i : ℕ)
    (b : List String) :
    (buildStep (L, a, i) b).1 = (alldiffchunks a b).reverse.foldl
      (fun L c => edit_chunk L (2 * i + 1) (c.1 : ℤ) (c.2.1 : ℤ)
        (2 * i + 1) (c.2.2.1 : ℤ) (c.2.2.2 : ℤ)) L := rfl

theorem buildStep_snd (L : LineLog) (a : List String) (i : ℕ)
    (b : List String) : (buildStep (L, a, i) b).2 = (b, i + 1) := rfl

/-- One step of the `_buildlinelog` fold preserves the build invariant. -/
theorem buildStep_inv (cs : List (List String)) (i : ℕ) (L : LineLog)
    (a b : List String) (hInv : BuildInv cs i L a) (hb : cs.getD i [] = b) :
    BuildInv cs (i + 1) (buildStep (L, a, i) b).1 b := by
  obtain ⟨hbound, hcontent⟩ := hInv
  have hstab : ∀ (r1 r2 : ℕ), 2 * i ≤ r1 + 1 → 2 * i ≤ r2 + 1 →
      ∀ e ∈ L.entries, visibleAt r1 e = visibleAt r2 e := by
    intro r1 r2 h1 h2 e he
    obtain ⟨her, hed⟩ := hbound e he
    rw [visibleAt, visibleAt]
    have he1 : e.rev ≤ r1 := by omega
    have he2 : e.rev ≤ r2 := by omega
    cases hd : e.delRev with
    | none => simp [he1, he2]
    | some d =>
      have hdd := hed d (Option.mem_def.mpr hd)
      have hn1 : ¬ (r1 < d) := by omega
      have hn2 : ¬ (r2 < d) := by omega
      simp [he1, he2, hn1, hn2]
  rw [buildStep_fst]
  by_cases hcnd : a.length - commonPrefixLen a b =
      commonPrefixLen (a.drop (commonPrefixLen a b)).reverse
        (b.drop (commonPrefixLen a b)).reverse ∧
      b.length - commonPrefixLen a b =
      commonPrefixLen (a.drop (commonPrefixLen a b)).reverse
        (b.drop (commonPrefixLen a b)).reverse
  · have hnil : alldiffchunks a b = [] := by
      rw [alldiffchunks, if_pos hcnd]
    have hab : a = b := alldiffchunks_eq_nil hnil
    rw [hnil]
    simp only [List.reverse_nil, List.foldl_nil]
    constructor
    · intro e he
      obtain ⟨h1, h2⟩ := hbound e he
      exact ⟨by omega, fun d hd => by have := h2 d hd; omega⟩
    · intro r hr
      rw [hcontent r (by omega), hab]
  · have hone : alldiffchunks a b =
        [(commonPrefixLen a b,
          a.length - commonPrefixLen (a.drop (commonPrefixLen a b)).reverse
            (b.drop (commonPrefixLen a b)).reverse,
          commonPrefixLen a b,
          b.length - commonPrefixLen (a.drop (commonPrefixLen a b)).reverse
            (b.drop (commonPrefixLen a b)).reverse)] := by
      rw [alldiffchunks, if_neg hcnd]
    rw [hone]
    simp only [List.reverse_singleton, List.foldl_cons, List.foldl_nil]
    set p := commonPrefixLen a b with hp
    set s := commonPrefixLen (a.drop p).reverse (b.drop p).reverse with hs
    have hpa : p ≤ a.length := commonPrefixLen_le_left a b
    have hpb : p ≤ b.length := commonPrefixLen_le_right a b
    have hsa : s ≤ a.length - p := by
      have := commonPrefixLen_le_left (a.drop p).reverse (b.drop p).reverse
      rw [List.length_reverse, List.length_drop] at this
      exact this
    have hsb : s ≤ b.length - p := by
      have := commonPrefixLen_le_right (a.drop p).reverse (b.drop p).reverse
      rw [List.length_reverse, List.length_drop] at this
      exact this
    simp only [edit_chunk]
    constructor
    · -- revision bounds for the edited document
      refine editChunkGo_entries_pres _ _ _ _ _
        (fun e => e.rev + 1 ≤ 2 * (i + 1) ∧
          ∀ d ∈ e.delRev, d + 1 ≤ 2 * (i + 1)) ?_ 0 L.entries ?_
      · intro e he
        obtain ⟨k, -, hk⟩ := List.mem_map.mp he
        rw [← hk]
        refine ⟨?_, ?_⟩
        · show 2 * i + 1 + 1 ≤ 2 * (i + 1)
          omega
        · intro d hd
          exact absurd hd (by simp)
      · intro e he
        obtain ⟨h1, h2⟩ := hbound e he
        constructor
        · exact ⟨by omega, fun d hd => by have := h2 d hd; omega⟩
        · constructor
          · show e.rev + 1 ≤ 2 * (i + 1)
            omega
          · intro d hd
            have hd2 : (2 * i + 1 : ℕ) = d := Option.some_inj.mp
              (Option.mem_def.mp hd)
            omega
    · -- content of every checkout at or above 2*(i+1) - 1
      intro r hr
      have hfilter := editChunkGo_filter_before (2 * i + 1) r
        (p : ℤ) ((a.length - s : ℕ) : ℤ)
        ((List.range ((((b.length - s : ℕ) : ℤ) - (p : ℤ)).toNat)).map
          (fun (k : ℕ) => LineEntry.mk (2 * i + 1)
            (((p : ℤ) + (k : ℤ)).toNat) none))
        (by omega)
        (by
          intro e he
          obtain ⟨k, -, hk⟩ := List.mem_map.mp he
          rw [← hk]
          simp [visibleAt]
          omega)
        (by exact_mod_cast (by omega : p ≤ a.length - s))
        L.entries 0
        (hstab r (2 * i + 1) (by omega) (by omega)) (by exact_mod_cast p.zero_le)
      dsimp only
      rw [hfilter]
      rw [List.map_append, List.map_append]
      have hV : (L.entries.filter (visibleAt (2 * i + 1))).map (resolveB cs)
          = a := hcontent (2 * i + 1) (by omega)
      have htake : ((L.entries.filter (visibleAt (2 * i + 1))).take
          (((p : ℤ) - 0).toNat)).map (resolveB cs) = a.take p := by
        rw [show (((p : ℤ) - 0).toNat) = p from by omega]
        rw [List.map_take, hV]
      have hdrop : ((L.entries.filter (visibleAt (2 * i + 1))).drop
          ((((a.length - s : ℕ) : ℤ) - 0).toNat)).map (resolveB cs)
          = a.drop (a.length - s) := by
        rw [show ((((a.length - s : ℕ) : ℤ) - 0).toNat) = a.length - s
          from by omega]
        rw [List.map_drop, hV]
      have hinsmap : ((List.range ((((b.length - s : ℕ) : ℤ) - (p : ℤ)).toNat)).map
          (fun (k : ℕ) => LineEntry.mk (2 * i + 1)
            (((p : ℤ) + (k : ℤ)).toNat) none)).map
          (resolveB cs) = (b.drop p).take (b.length - s - p) := by
        rw [List.map_map]
        have hfun : (resolveB cs) ∘
            (fun (k : ℕ) => LineEntry.mk (2 * i + 1) (((p : ℤ) + (k : ℤ)).toNat) none)
            = fun (k : ℕ) => b.getD (p + k) "" := by
          funext k
          show (cs.getD ((2 * i + 1) / 2) []).getD
            (((p : ℤ) + (k : ℤ)).toNat) "" = b.getD (p + k) ""
          rw [show (2 * i + 1) / 2 = i from by omega, hb,
              show (((p : ℤ) + (k : ℤ)).toNat) = p + k from by omega]
        rw [hfun]
        rw [show ((((b.length - s : ℕ) : ℤ) - (p : ℤ)).toNat)
          = b.length - s - p from by omega]
        exact range_map_getD b (b.length - s - p) p (by omega)
      rw [htake, hdrop, hinsmap]
      -- the three segments reassemble to b
      have hsufftake : ((a.drop p).reverse).take s = ((b.drop p).reverse).take s := by
        rw [hs]
        exact commonPrefixLen_take_eq _ _
      have hlenA : (a.drop p).length - ((a.drop p).length - s) = s := by
        rw [List.length_drop]
        omega
      have hlenB : (b.drop p).length - ((b.drop p).length - s) = s := by
        rw [List.length_drop]
        omega
      have hA := @List.reverse_drop String (a.drop p) ((a.drop p).length - s)
      have hB := @List.reverse_drop String (b.drop p) ((b.drop p).length - s)
      rw [hlenA] at hA
      rw [hlenB] at hB
      have hAB : (a.drop p).drop ((a.drop p).length - s)
          = (b.drop p).drop ((b.drop p).length - s) := by
        apply List.reverse_injective
        rw [hA, hB, hsufftake]
      rw [List.drop_drop, List.drop_drop, List.length_drop,
          List.length_drop] at hAB
      rw [show p + (a.length - p - s) = a.length - s from by omega,
          show p + (b.length - p - s) = b.length - s from by omega] at hAB
      rw [hAB]
      rw [commonPrefixLen_take_eq a b, ← hp]
      have h1 : (b.drop p).drop (b.length - s - p) = b.drop (b.length - s) := by
        rw [List.drop_drop,
            show p + (b.length - s - p) = b.length - s from by omega]
      rw [← h1, List.append_assoc, List.take_append_drop,
          List.take_append_drop]

theorem build_fold_inv (cs : List (List String)) :
    ∀ (tail : List (List String)) (i : ℕ) (L : LineLog) (a : List String),
      tail = cs.drop i → BuildInv cs i L a →
      BuildInv cs (i + tail.length) (tail.foldl buildStep (L, a, i)).1
        (tail.foldl buildStep (L, a, i)).2.1 := by
  intro tail
  induction tail with
  | nil =>
    intro i L a hdrop hInv
    simpa using hInv
  | cons b rest ih =>
    intro i L a hdrop hInv
    have hb : cs.getD i [] = b := by
      have h1 : cs[i]? = some b := by
        rw [← List.head?_drop, ← hdrop]
        rfl
      rw [List.getD_eq_getElem?_getD, h1]
      rfl
    have hrest : rest = cs.drop (i + 1) := by
      have h2 : cs.drop (i + 1) = (cs.drop i).drop 1 := by
        rw [List.drop_drop]
      rw [h2, ← hdrop]
      rfl
    rw [List.foldl_cons]
    have hstep := buildStep_inv cs i L a b hInv hb
    have hshape : buildStep (L, a, i) b
        = ((buildStep (L, a, i) b).1, b, i + 1) := rfl
    rw [hshape]
    have hrec := ih (i + 1) (buildStep (L, a, i) b).1 b hrest hstep
    rw [List.length_cons,
        show i + (rest.length + 1) = (i + 1) + rest.length from by omega]
    exact hrec

theorem foldl_buildStep_snd_fst :
    ∀ (tail : List (List String)) (acc : LineLog × List String × ℕ),
      (tail.foldl buildStep acc).2.1 = (tail.getLast?).getD acc.2.1 := by
  intro tail
  induction tail with
  | nil => intro acc; rfl
  | cons b rest ih =>
    intro acc
    rw [List.foldl_cons, ih]
    cases rest with
    | nil => rfl
    | cons c cs2 =>
      obtain ⟨y, hy⟩ : ∃ y, (c :: cs2).getLast? = some y := by
        cases hh : (c :: cs2).getLast? with
        | none => simp at hh
        | some y => exact ⟨y, rfl⟩
      rw [List.getLast?_cons_cons, hy]
      rfl

/-- Round-trip: the newest checkout of a freshly built linelog resolves to
the newest snapshot's content. -/
theorem buildlinelog_content (cs : List (List String)) :
    ((buildlinelog cs).entries.filter
      (visibleAt (buildlinelog cs).maxrev)).map (resolveB cs)
      = (cs.getLast?).getD [] := by
  have hbase : BuildInv cs 0 ⟨[], 0⟩ [] := by
    constructor
    · intro e he
      simp at he
    · intro r hr
      rfl
  have h := build_fold_inv cs cs 0 ⟨[], 0⟩ [] (by simp) hbase
  obtain ⟨-, hcontent⟩ := h
  have hent : (buildlinelog cs).entries
      = (cs.foldl buildStep (⟨[], 0⟩, [], 0)).1.entries := rfl
  have hmax : (buildlinelog cs).maxrev = 2 * cs.length := rfl
  rw [hent, hmax, hcontent (2 * cs.length) (by omega)]
  exact foldl_buildStep_snd_fst cs (⟨[], 0⟩, [], 0)

/-- The resolved checkout of the newest revision of a freshly built state
is the newest snapshot's content. -/
theorem checkout_content_newest (cs : List (List String)) :
    checkout_content (mkFileFixupState cs) (mkFileFixupState cs).linelog.maxrev
      = (cs.getLast?).getD [] := by
  rw [checkout_content]
  rw [show (mkFileFixupState cs).linelog = buildlinelog cs from rfl]
  rw [checkout_lines]
  rw [List.dropLast_concat]
  rw [List.map_map]
  have hcongr : ∀ e ∈ (buildlinelog cs).entries.filter
      (visibleAt (buildlinelog cs).maxrev),
      ((fun l => getline (mkFileFixupState cs) l.rev l.linenum) ∘
        (fun e => AnnLine.mk e.rev e.linenum 0 false)) e = resolveB cs e := by
    intro e he
    have hodd : e.rev % 2 = 1 :=
      buildlinelog_rev_odd cs e (List.mem_of_mem_filter he)
    show getline (mkFileFixupState cs) e.rev e.linenum = resolveB cs e
    rw [getline, if_pos hodd]
    rfl
  rw [List.map_congr_left hcongr]
  exact buildlinelog_content cs

/-!
## Claim theorems
-/

/-- **C6** (code bug).  The claim says the gap computation records one gap
position per run of consecutive `deleted` entries, runs collapsed to a
single boundary, and that deleted lines before the first retained line also
produce a gap.  The code disagrees on both counts, because the `else`
branch of its loop increments `lineno` even for a `deleted` entry that
records no gap: a single deleted entry before the first retained line
records nothing, and a run of three deleted entries between two retained
lines records two gaps (the second one at a drifted position). -/
theorem C6_gap_computation_failing_inputs :
    calculate_gap_lines [⟨2, 0, 0, true⟩, ⟨1, 0, 0, false⟩] = [] ∧
    calculate_gap_lines
        [⟨1, 0, 0, false⟩, ⟨1, 1, 0, true⟩, ⟨1, 2, 0, true⟩,
         ⟨1, 3, 0, true⟩, ⟨1, 4, 0, false⟩]
      = [halfAbove 0, halfAbove 1] := by
  constructor <;> decide

/-- **C4** (code bug).  The claim says applying the optimized fixups yields
the same final per-revision contents as applying them unoptimized.  With
the drifted gap list `[0.5, 3.5]` of `scenarioGapDrift` (the real gaps are
at `0.5` and `2.5`), `_optimizefixups` wrongly believes the boundary
between the two valid fixups is continuous and merges them; the merged
fixup inserts both replacement lines before the deleted line `o`, while the
unmerged pair keeps `o` between them, so the contents checked out for
revision 6 differ. -/
theorem C4_optimizer_changes_final_contents :
    validfixups scenarioGapDrift gapDriftFixups ∧
    optimizefixups scenarioGapDrift.gap_lines gapDriftFixups = [⟨6, 2, 4, 2, 4⟩] ∧
    (applyState { scenarioGapDrift with fixups := gapDriftFixups }).finalcontents ≠
      (applyState { scenarioGapDrift with
        fixups := optimizefixups scenarioGapDrift.gap_lines gapDriftFixups }).finalcontents := by
  refine ⟨⟨?_, ?_⟩, ?_, ?_⟩ <;> decide

/-- **C9** (counterexample).  In the spec's concrete scenario the final
content of `S1`'s layer is *not* `"a\nB\nC\n"`: the changed line `c`
originates from the immutable oldest snapshot (linelog revision 1), so no
fixup is emitted and nothing is absorbed. -/
theorem C9_counterexample_scenario :
    ¬ (scenarioS0S1.finalcontents.getD 1 "" = "a\nB\nC\n" ∧
       scenarioS0S1.finalcontents.getD 0 "" = "a\nb\nc\n") := by
  decide

/-- **C9** (amended).  In the concrete scenario built from
`S0 = "a\nb\nc\n"` and `S1 = "a\nB\nc\n"` with target `"a\nB\nC\n"`,
`diffwith` emits no fixups at all (the `c` → `C` hunk touches only a line
of the immutable oldest snapshot) and the final contents after `apply` are
unchanged: `S0`'s layer remains `"a\nb\nc\n"` and `S1`'s layer remains
`"a\nB\nc\n"`. -/
theorem C9_scenario_amended :
    scenarioS0S1.fixups = [] ∧
    scenarioS0S1.finalcontents = ["a\nb\nc\n", "a\nB\nc\n"] := by
  constructor <;> rfl

/-- **C5** (counterexample).  The order in which `apply` invokes
`edit_chunk` is the reverse of the recorded fixup list; in
`scenarioTwoRevs` that order is `[(rev 4, ...), (rev 6, ...)]`, which is
not descending in the target revision, refuting the claimed processing
order. -/
theorem C5_counterexample_order_not_rev_descending :
    ¬ (scenarioTwoRevs.fixups.reverse).Pairwise (fun f g => g.rev ≤ f.rev) := by
  decide

/-- **C1** (confirmed).  For a differing hunk whose involved annotated
lines all originate from exactly one revision `rev` and whose range is
continuous (`_iscontinuous(a1, a2-1)`), the chunk analysis emits exactly
the one fixup `(rev+1, a1, a2, b1, b2)` when `rev > 1`, and nothing when
`rev` is the oldest immutable revision. -/
theorem C1_single_revision_attribution (gap_lines : List ℚ)
    (chunk : ℕ × ℕ × ℕ × ℕ) (annotated : List AnnLine) (rev : ℕ)
    (h1 : ((involvedLines chunk annotated).map (·.rev)).dedup = [rev])
    (h2 : iscontinuous gap_lines (chunk.1 : ℤ) ((chunk.2.1 : ℤ) - 1) = true) :
    analysediffchunk gap_lines chunk annotated =
      if 1 < rev then
        [⟨(rev : ℤ) + 1, (chunk.1 : ℤ), (chunk.2.1 : ℤ),
          (chunk.2.2.1 : ℤ), (chunk.2.2.2 : ℤ)⟩]
      else [] := by
  have hraw : analyseChunkRaw gap_lines chunk annotated =
      if 1 < rev then
        [⟨(rev : ℤ) + 1, (chunk.1 : ℤ), (chunk.2.1 : ℤ),
          (chunk.2.2.1 : ℤ), (chunk.2.2.2 : ℤ)⟩]
      else [] := by
    simp only [analyseChunkRaw, h1]
    have hcond : ([rev].length = 1 ∧
        iscontinuous gap_lines (chunk.1 : ℤ) ((chunk.2.1 : ℤ) - 1) = true) :=
      ⟨rfl, h2⟩
    rw [if_pos hcond]
    rfl
  rw [analysediffchunk, hraw]
  by_cases hrev : 1 < rev
  · rw [if_pos hrev]
    exact optimizefixups_singleton _ _ (by
      show ((rev : ℤ) + 1) ≠ -1
      omega)
  · rw [if_neg hrev]
    exact optimizefixups_nil _

/-- Witness for C1: a one-line modification of a line introduced by
linelog revision 3 is attributed to revision 4. -/
theorem C1_witness :
    analysediffchunk [] (0, 1, 0, 1) [⟨3, 0, 0, false⟩, ⟨0, 0, 0, false⟩] =
      [⟨4, 0, 1, 0, 1⟩] := by
  have h := C1_single_revision_attribution []
    (0, 1, 0, 1) [⟨3, 0, 0, false⟩, ⟨0, 0, 0, false⟩] 3 (by decide) (by decide)
  simpa using h

/-- **C2** (confirmed).  A differing hunk whose deleted lines (or, for a
pure insertion, whose up-to-two neighboring lines) all originate from
linelog revision 1 — the oldest immutable snapshot — produces no fixup. -/
theorem C2_oldest_snapshot_immunity (gap_lines : List ℚ)
    (chunk : ℕ × ℕ × ℕ × ℕ) (annotated : List AnnLine)
    (h : ((annotated.drop chunk.1).take (chunk.2.1 - chunk.1) ≠ [] ∧
            ∀ l ∈ (annotated.drop chunk.1).take (chunk.2.1 - chunk.1),
              l.rev = 1) ∨
         ((annotated.drop chunk.1).take (chunk.2.1 - chunk.1) = [] ∧
            ∀ i ∈ nearbyLineNums chunk.1 chunk.2.1,
              ∀ l, annotated.get? i = some l → l.rev = 1)) :
    analysediffchunk gap_lines chunk annotated = [] := by
  obtain ⟨a1, a2, b1, b2⟩ := chunk
  have hperline :
      ((annotated.drop a1).take (a2 - a1) = [] ∨
        ∀ l ∈ (annotated.drop a1).take (a2 - a1), l.rev = 1) →
      (List.range' a1 (a2 - a1)).filterMap (perLineFixup a1 b1 b2 annotated)
        = [] := by
    intro hcase
    rw [List.filterMap_eq_nil]
    intro i hi
    have hmem : a1 ≤ i ∧ i < a1 + (a2 - a1) := List.mem_range'_1.mp hi
    rw [perLineFixup]
    cases hget : annotated.get? i with
    | none => rfl
    | some l =>
      have hia2 : i < a2 := by omega
      have hl : l ∈ (annotated.drop a1).take (a2 - a1) :=
        mem_slice_of_get? hmem.1 hia2 hget
      rcases hcase with hnil | hall
      · rw [hnil] at hl
        exact absurd hl (List.not_mem_nil _)
      · have : l.rev = 1 := hall l hl
        simp [this]
  rcases h with ⟨hne, hall⟩ | ⟨hnil, hnear⟩
  · -- the deleted lines are all revision-1 lines
    have hinv : involvedLines (a1, a2, b1, b2) annotated =
        (annotated.drop a1).take (a2 - a1) := by
      simp only [involvedLines]
      rw [if_neg (fun hcon => hne hcon.1)]
    have hrevs : ((involvedLines (a1, a2, b1, b2) annotated).map (·.rev)).dedup
        = [1] := by
      rw [hinv]
      refine dedup_eq_singleton_of_forall (by simpa using hne) ?_
      intro x hx
      obtain ⟨l, hl, hlx⟩ := List.mem_map.mp hx
      rw [← hlx]
      exact hall l hl
    rw [analysediffchunk]
    have hraw : analyseChunkRaw gap_lines (a1, a2, b1, b2) annotated = [] := by
      simp only [analyseChunkRaw, hrevs]
      by_cases hc : iscontinuous gap_lines (a1 : ℤ) ((a2 : ℤ) - 1) = true
      · rw [if_pos ⟨by simp, hc⟩]
        simp
      · rw [if_neg (by tauto)]
        by_cases hm : ((a2 : ℕ) : ℤ) - ((a1 : ℕ) : ℤ) = ((b2 : ℕ) : ℤ) - ((b1 : ℕ) : ℤ) ∨ b1 = b2
        · rw [if_pos hm]
          exact hperline (Or.inr hall)
        · rw [if_neg hm]
    rw [hraw]
    exact optimizefixups_nil _
  · -- pure insertion (or out-of-range chunk): the nearby lines are all
    -- revision-1 lines and are therefore excluded
    have hinv : involvedLines (a1, a2, b1, b2) annotated = [] := by
      simp only [involvedLines]
      by_cases hann : annotated = []
      · subst hann
        simp
      · rw [if_pos ⟨hnil, hann⟩]
        rw [List.filterMap_eq_nil]
        intro i hi
        cases hget : annotated.get? i with
        | none => rfl
        | some l =>
          have : l.rev = 1 := hnear i hi l hget
          simp [this]
    rw [analysediffchunk]
    have hraw : analyseChunkRaw gap_lines (a1, a2, b1, b2) annotated = [] := by
      simp only [analyseChunkRaw, hinv]
      rw [if_neg (by simp)]
      by_cases hm : ((a2 : ℕ) : ℤ) - ((a1 : ℕ) : ℤ) = ((b2 : ℕ) : ℤ) - ((b1 : ℕ) : ℤ) ∨ b1 = b2
      · rw [if_pos hm]
        exact hperline (Or.inl hnil)
      · rw [if_neg hm]
    rw [hraw]
    exact optimizefixups_nil _

/-- Witness for C2: deleting a line that has been present since the oldest
snapshot produces no fixup. -/
theorem C2_witness :
    analysediffchunk [] (0, 1, 0, 0) [⟨1, 0, 0, false⟩, ⟨0, 0, 0, false⟩] = [] :=
  C2_oldest_snapshot_immunity [] (0, 1, 0, 0)
    [⟨1, 0, 0, false⟩, ⟨0, 0, 0, false⟩]
    (Or.inl ⟨by decide, by decide⟩)

/-- **C5** (amended).  `filefixupstate.apply` processes the fixup list in
the reverse of the recorded order — which is descending in `a1`, since the
recorded fixups have ordered disjoint delete ranges — invoking `edit_chunk`
for each fixup against the maximum revision of the log read when `apply`
starts.  (It is not in general descending in target revision; see the
counterexample.) -/
theorem C5_apply_order_descending_a1 (cs : List (List String))
    (blines : List String) :
    List.Pairwise (fun f g : Fixup => g.a1 ≤ f.a1)
      ((diffwith (mkFileFixupState cs) blines).fixups.reverse) ∧
    (applyState (diffwith (mkFileFixupState cs) blines)).linelog =
      ((diffwith (mkFileFixupState cs) blines).fixups.reverse).foldl
        (fun L f => edit_chunk L
          (diffwith (mkFileFixupState cs) blines).linelog.maxrev
          f.a1 f.a2 f.rev.toNat f.b1 f.b2)
        (diffwith (mkFileFixupState cs) blines).linelog := by
  constructor
  · rw [List.pairwise_reverse]
    rcases diffwith_fixups_shape (mkFileFixupState cs) blines with
      h | ⟨c, hcwf, h⟩
    · rw [h]
      exact List.Pairwise.nil
    · rw [h, analysediffchunk]
      obtain ⟨hp, hwf⟩ := analyseChunkRaw_sorted _ c _ hcwf
      obtain ⟨hp2, hwf2⟩ := optimizefixups_sorted _ _ hp hwf
      refine List.Pairwise.imp_of_mem ?_ hp2
      intro f g hfm hgm hfg
      have := hwf2 f hfm
      omega
  · rfl

/-- **C3** (confirmed).  For every built file fixup state and all integers
`a1`, `a2`, `_iscontinuous(a1, a2)` returns true exactly when no recorded
gap position lies strictly between `a1` and `a2`; in particular it returns
true whenever `a1 ≥ a2`.  (`calculate_gap_lines_spec` shows the computed
gap list is indeed a sorted sequence of half-integer positions.) -/
theorem C3_iscontinuous_characterization (contentlines : List (List String))
    (a1 a2 : ℤ) :
    (iscontinuous (mkFileFixupState contentlines).gap_lines a1 a2 = true ↔
      ¬ ∃ g ∈ (mkFileFixupState contentlines).gap_lines,
          (a1 : ℚ) < g ∧ g < (a2 : ℚ)) ∧
    (a1 ≥ a2 → iscontinuous (mkFileFixupState contentlines).gap_lines a1 a2
      = true) := by
  have h := calculate_gap_lines_spec
    (checkout_lines_full (buildlinelog contentlines)
      (buildlinelog contentlines).maxrev)
  refine ⟨iscontinuous_iff_no_gap_inside _ a1 a2 h.1 h.2, ?_⟩
  intro hge
  rw [iscontinuous, if_pos hge]

/-- Witness for C3: in the state built from `["a\nb\n", "a\n"]` the gap
list is `[0.5]`, and lines 1 and 2 of the newest revision are continuous
since no gap lies strictly inside `(1, 2)`. -/
theorem C3_witness :
    iscontinuous (mkFileFixupState [["a\n", "b\n"], ["a\n"]]).gap_lines 1 2
      = true :=
  (C3_iscontinuous_characterization [["a\n", "b\n"], ["a\n"]] 1 2).1.mpr
    (by decide)

/-- **C7** (confirmed).  One step of `_optimizefixups` merges the incoming
fixup into the accumulated one exactly when both target the same revision,
the accumulated fixup's delete and insert ranges end exactly where the
incoming one's begin, and the boundary between them is continuous;
otherwise the accumulated chunk is pushed and the incoming fixup starts a
new output entry. -/
theorem C7_optimizer_merge_condition (gap_lines : List ℚ)
    (res : List Fixup) (pcur c : Fixup) (h : c.rev ≠ -1) :
    (optimizeStep gap_lines (res, pcur) c
        = (res, { pcur with a2 := c.a2, b2 := c.b2 }) ↔
      (c.a1 = pcur.a2 ∧ c.b1 = pcur.b2 ∧ c.rev = pcur.rev ∧
        iscontinuous gap_lines (max (c.a1 - 1) 0) c.a1 = true)) ∧
    (¬ (c.a1 = pcur.a2 ∧ c.b1 = pcur.b2 ∧ c.rev = pcur.rev ∧
        iscontinuous gap_lines (max (c.a1 - 1) 0) c.a1 = true) →
      optimizeStep gap_lines (res, pcur) c = (pushchunk res pcur, c)) := by
  constructor
  · constructor
    · intro heq
      by_cases hcond : c.a1 = pcur.a2 ∧ c.b1 = pcur.b2 ∧ c.rev = pcur.rev ∧
          iscontinuous gap_lines (max (c.a1 - 1) 0) c.a1 = true
      · exact hcond
      · exfalso
        rw [optimizeStep, if_neg hcond] at heq
        have hsnd : c = { pcur with a2 := c.a2, b2 := c.b2 } :=
          congrArg Prod.snd heq
        have hrev : c.rev = pcur.rev := congrArg (fun f => f.rev) hsnd
        have hfst : pushchunk res pcur = res := congrArg Prod.fst heq
        by_cases hp : pcur.rev ≠ -1
        · rw [pushchunk, if_pos hp] at hfst
          have := congrArg List.length hfst
          simp at this
        · push_neg at hp
          exact h (hrev.trans hp)
    · intro hcond
      rw [optimizeStep, if_pos hcond]
  · intro hcond
    rw [optimizeStep, if_neg hcond]

/-- Witness for C7: a merge step that fires (adjacent same-revision
fixups, no gap recorded at the boundary) and one that does not (different
revisions). -/
theorem C7_witness :
    optimizeStep [] ([], ⟨6, 2, 3, 2, 3⟩) ⟨6, 3, 4, 3, 4⟩
      = ([], ⟨6, 2, 4, 2, 4⟩) ∧
    optimizeStep [] ([], ⟨6, 2, 3, 2, 3⟩) ⟨4, 3, 4, 3, 4⟩
      = ([⟨6, 2, 3, 2, 3⟩], ⟨4, 3, 4, 3, 4⟩) := by
  constructor
  · exact (C7_optimizer_merge_condition [] [] ⟨6, 2, 3, 2, 3⟩ ⟨6, 3, 4, 3, 4⟩
      (by decide)).1.mpr (by decide)
  · exact (C7_optimizer_merge_condition [] [] ⟨6, 2, 3, 2, 3⟩ ⟨4, 3, 4, 3, 4⟩
      (by decide)).2 (by decide)

/-- **C8** (confirmed).  For every built state (the spec rejects an empty
snapshot stack with `MalformedInput`), calling `diffwith` with a target
whose content equals the checkout of the newest revision records no
fixups. -/
theorem C8_noop_target_yields_no_fixups (cs : List (List String))
    (h : cs ≠ []) :
    (diffwith (mkFileFixupState cs)
      (checkout_content (mkFileFixupState cs)
        (mkFileFixupState cs).linelog.maxrev)).fixups = [] := by
  rw [checkout_content_newest cs]
  have hchunks : alldiffchunks
      (((mkFileFixupState cs).contentlines.getLast?).getD [])
      ((cs.getLast?).getD []) = [] := by
    rw [show (mkFileFixupState cs).contentlines = cs from rfl]
    exact alldiffchunks_self _
  simp only [diffwith, hchunks, List.foldl_nil]

/-- Witness for C8: the one-snapshot state diffed against its own newest
checkout records nothing. -/
theorem C8_witness :
    (diffwith (mkFileFixupState [["a\n"]])
      (checkout_content (mkFileFixupState [["a\n"]])
        (mkFileFixupState [["a\n"]]).linelog.maxrev)).fixups = [] :=
  C8_noop_target_yields_no_fixups [["a\n"]] (by decide)

/-- **C10** (confirmed).  Every fixup recorded by `diffwith` on a freshly
built state has an even target revision at least 4: the built linelog's
annotation holds only odd origin revisions (plus the revision-0 dummy end
line), and the chunk analysis emits `origin + 1` only when the origin
exceeds 1, so no fixup ever targets an odd snapshot revision or the
immutable first pair (revisions 1 and 2). -/
theorem C10_fixup_revisions_even_ge_four (cs : List (List String))
    (blines : List String) (f : Fixup)
    (hf : f ∈ (diffwith (mkFileFixupState cs) blines).fixups) :
    f.rev % 2 = 0 ∧ 4 ≤ f.rev := by
  rcases diffwith_fixups_shape (mkFileFixupState cs) blines with h | ⟨c, -, h⟩
  · rw [h] at hf
    exact absurd hf (List.not_mem_nil _)
  · rw [h, analysediffchunk] at hf
    have hann : ∀ l ∈ fixEndLine (checkout_lines
        (mkFileFixupState cs).linelog (mkFileFixupState cs).linelog.maxrev),
        l.rev = 0 ∨ l.rev % 2 = 1 := by
      refine fixEndLine_revs _ (fun r => r = 0 ∨ r % 2 = 1) (Or.inl rfl) ?_
      refine checkout_lines_revs _ _ (fun r => r = 0 ∨ r % 2 = 1) ?_
        (Or.inl rfl)
      intro e he
      exact Or.inr (buildlinelog_rev_odd cs e he)
    refine optimizefixups_rev_pres _ (fun r => r % 2 = 0 ∧ 4 ≤ r) _ ?_ f hf
    intro g hg
    obtain ⟨l, hl, hlrev, hgrev⟩ := analyseChunkRaw_revs _ c _ g hg
    have hodd : l.rev = 0 ∨ l.rev % 2 = 1 := hann l hl
    rw [hgrev]
    omega

/-- Witness for C10: the two fixups recorded in the three-snapshot scenario
target the even edit revisions 6 and 4. -/
theorem C10_witness :
    (⟨6, 1, 2, 1, 2⟩ : Fixup).rev % 2 = 0 ∧ 4 ≤ (⟨6, 1, 2, 1, 2⟩ : Fixup).rev :=
  C10_fixup_revisions_even_ge_four
    [["x\n"], ["x\n", "b\n"], ["x\n", "a\n", "b\n"]] ["x\n", "A\n", "B\n"]
    ⟨6, 1, 2, 1, 2⟩ (by decide)

end Absorb
